import Mathlib

/-!
# Linux trust store: install-strategy resolution, Install and Uninstall

A shallow embedding of `truststore/truststore_linux.go`.

* Go strings are modelled by `String`; the library calls the file makes
  (`strings.Replace`, `strings.Join`, `fmt.Sprintf`, `fmt.Errorf`,
  `(*big.Int).String`) are modelled by executable functions on character lists.
* A Go `error` is modelled by its message: `Option String`, `none` being `nil`.
* `pathExists`, `decodeCert`, `commandWithSudo`, `ioutil.ReadFile` and
  `(*exec.Cmd).CombinedOutput` are not defined in this file of the package; they are
  the fields of a `Host`, over an explicit host state that only running a command can
  change.
* `Install` and `Uninstall` return, next to the Go error, the final host state and the
  log of every command whose `CombinedOutput` was called.
-/

namespace Truststore

/-! ## Library functions used by the source -/

/-- Decimal text of an arbitrary-precision integer, as `(*big.Int).String` gives it for a
non-nil receiver: the digits of the magnitude, preceded by `-` for a negative number. -/
def bigIntString : Int → String
  | Int.ofNat m => Nat.repr m
  | Int.negSucc m => "-" ++ Nat.repr (m + 1)

/-- Replacement of the leftmost non-overlapping occurrences of a non-empty `old`:
`skip` counts the characters of a matched occurrence still to be dropped, `lim` the
replacements still allowed (`none`: no limit). -/
def replaceAux (old new : List Char) : Option Nat → Nat → List Char → List Char
  | _, _, [] => []
  | lim, skip + 1, _ :: cs => replaceAux old new lim skip cs
  | lim, 0, c :: cs =>
    if lim ≠ some 0 ∧ old.isPrefixOf (c :: cs) = true then
      new ++ replaceAux old new (lim.map (fun k => k - 1)) (old.length - 1) cs
    else c :: replaceAux old new lim 0 cs

/-- Replacement of an empty `old`: `new` is inserted before every character and at the
end, as long as the limit allows. -/
def insertAux (new : List Char) : Option Nat → List Char → List Char
  | lim, [] => if lim ≠ some 0 then new else []
  | lim, c :: cs =>
    if lim ≠ some 0 then new ++ c :: insertAux new (lim.map (fun k => k - 1)) cs
    else c :: cs

/-- Go's `strings.Replace(s, old, new, n)`: a copy of `s` with the first `n`
non-overlapping instances of `old` replaced by `new`; no limit when `n < 0`. -/
def strings.Replace (s old new : String) (n : Int) : String :=
  if old = new ∨ n = 0 then s
  else
    let lim : Option Nat := if n < 0 then none else some n.toNat
    if old.data = [] then ⟨insertAux new.data lim s.data⟩
    else ⟨replaceAux old.data new.data lim 0 s.data⟩

/-- Go's `strings.Join(elems, sep)`. -/
def strings.Join (elems : List String) (sep : String) : String :=
  sep.intercalate elems

/-- The body of `fmt.Sprintf` for one string operand and the verbs `%s` and `%%`:
`%s` consumes the operand, a second `%s` finds it missing, an operand left over is
reported at the end. Other verbs and flags are not modelled (the patterns of this file
use none) and are copied through. -/
def sprintfAux : List Char → Option (List Char) → List Char
  | [], none => []
  | [], some a => "%!(EXTRA string=".data ++ a ++ [')']
  | '%' :: 's' :: cs, some a => a ++ sprintfAux cs none
  | '%' :: 's' :: cs, none => "%!s(MISSING)".data ++ sprintfAux cs none
  | '%' :: '%' :: cs, o => '%' :: sprintfAux cs o
  | c :: cs, o => c :: sprintfAux cs o

/-- Go's `fmt.Sprintf(format, a)` with a single string operand. -/
def fmt.Sprintf (format a : String) : String :=
  ⟨sprintfAux format.data (some a.data)⟩

/-- Go's `strconv.Quote` on printable ASCII text, which is what the verb `%q` prints for
a string: the text between double quotes, with `"` and `\` escaped by a backslash. -/
def strconv.Quote (s : String) : String :=
  ⟨'"' :: (s.data.flatMap fun c => if c = '"' ∨ c = '\\' then ['\\', c] else [c]) ++ ['"']⟩

/-- The message of `fmt.Errorf("command %q failed: %v", name, err)`. -/
def commandFailed (name err : String) : String :=
  "command " ++ strconv.Quote name ++ " failed: " ++ err

/-- The ten decimal digit characters. -/
def decimalDigits : List Char := "0123456789".data

/-- Reading a list of decimal digits back as a number. -/
def readDec (l : List Char) : Nat :=
  l.foldl (fun acc c => 10 * acc + (c.toNat - 48)) 0

/-! ## Data model -/

/-- The command necessary to install a root certificate on the current platform. -/
structure installCommand where
  rootsPattern : String
  command : List String
  deriving DecidableEq, Repr

/-- The zero value `installCommand{}`. -/
def installCommand.zero : installCommand := ⟨"", []⟩

/-- Function `strategy()`: the four candidate directories are probed in a fixed order
through `pathExists`; the Go function returns a value and an error, here a pair. -/
def strategy (pathExists : String → Bool) : installCommand × Option String :=
  if pathExists "/etc/pki/ca-trust/source/anchors/" then
    (⟨"/etc/pki/ca-trust/source/anchors/%s.pem", ["update-ca-trust", "extract"]⟩, none)
  else if pathExists "/usr/local/share/ca-certificates/" then
    (⟨"/usr/local/share/ca-certificates/%s.crt", ["update-ca-certificates"]⟩, none)
  else if pathExists "/etc/ca-certificates/trust-source/anchors/" then
    (⟨"/etc/ca-certificates/trust-source/anchors/%s.crt", ["trust", "extract-compat"]⟩, none)
  else if pathExists "/usr/share/pki/trust/anchors" then
    (⟨"/usr/share/pki/trust/anchors/%s.pem", ["update-ca-certificates"]⟩, none)
  else
    (installCommand.zero, some "no install strategy available")

/-- The file name both `Install` and `Uninstall` build from the certificate:
`strings.Replace("mkcert development CA "+c.SerialNumber.String(), " ", "_", -1)`. -/
def canonicalFileName (serial : Int) : String :=
  strings.Replace ("mkcert development CA " ++ bigIntString serial) " " "_" (-1)

/-- The path both `Install` and `Uninstall` build:
`fmt.Sprintf(strategy.rootsPattern, <canonical file name>)`. -/
def certPath (rootsPattern : String) (serial : Int) : String :=
  fmt.Sprintf rootsPattern (canonicalFileName serial)

/-- The path `fmt.Sprintf(strategy.rootsPattern, "mkcert-rootCA")` of `Uninstall`. -/
def legacyFilename (rootsPattern : String) : String :=
  fmt.Sprintf rootsPattern "mkcert-rootCA"

/-! ## The host: functions of the package defined outside this file -/

/-- The part of an `*exec.Cmd` the source touches: the argument vector chosen by
`commandWithSudo` and the `Stdin` field. -/
structure ExecCmd where
  Args : List String
  Stdin : Option (List UInt8)
  deriving DecidableEq, Repr

/-- What `CombinedOutput` returns: the combined standard output and standard error, and
the error (`none` when the command ran and exited with status zero). -/
structure CmdResult where
  output : String
  err : Option String
  deriving DecidableEq, Repr

/-- The collaborators of `Install` and `Uninstall`, over a host state `σ`. Only
`CombinedOutput` changes the state. `decodeCert` yields the serial number of the parsed
certificate, the only field of the certificate that is used. -/
structure Host (σ : Type) where
  ReadFile : σ → String → Except String (List UInt8)
  decodeCert : σ → String → Except String Int
  pathExists : σ → String → Bool
  commandWithSudo : σ → List String → Except String ExecCmd
  CombinedOutput : σ → ExecCmd → σ × CmdResult

/-- One call of `CombinedOutput`: the argument vector that was handed to
`commandWithSudo`, the `Stdin` the command was given, and what the call returned. -/
structure Ran where
  argv : List String
  stdin : Option (List UInt8)
  result : CmdResult
  deriving DecidableEq, Repr

/-- Result of an operation: the host state it leaves, the commands it ran, in order, and
the Go error it returns. -/
structure Outcome (σ : Type) where
  state : σ
  trace : List Ran
  err : Option String

/-! ## Install and Uninstall -/

/-- Method `(*linuxStore).Install(path)`. -/
def Install {σ : Type} (h : Host σ) (s : σ) (path : String) : Outcome σ :=
  match h.ReadFile s path with
  | .error e => ⟨s, [], some ("failed to read root certificate: " ++ e)⟩
  | .ok pemData =>
    match h.decodeCert s path with
    | .error e => ⟨s, [], some ("failed to parse root certificate: " ++ e)⟩
    | .ok serial =>
      match strategy (h.pathExists s) with
      | (_, some e) => ⟨s, [], some e⟩
      | (strat, none) =>
        match h.commandWithSudo s ["tee", certPath strat.rootsPattern serial] with
        | .error e => ⟨s, [], some e⟩
        | .ok cmd =>
          let r1 := h.CombinedOutput s { cmd with Stdin := some pemData }
          let t1 : Ran := ⟨["tee", certPath strat.rootsPattern serial], some pemData, r1.2⟩
          match r1.2.err with
          | some e => ⟨r1.1, [t1], some (commandFailed "tee" e)⟩
          | none =>
            match h.commandWithSudo r1.1 strat.command with
            | .error e => ⟨r1.1, [t1], some e⟩
            | .ok cmd2 =>
              let r2 := h.CombinedOutput r1.1 cmd2
              let t2 : Ran := ⟨strat.command, cmd2.Stdin, r2.2⟩
              match r2.2.err with
              | some e =>
                ⟨r2.1, [t1, t2], some (commandFailed (strings.Join strat.command " ") e)⟩
              | none => ⟨r2.1, [t1, t2], none⟩

/-- The tail of `Uninstall` from the refresh command on (source lines 116 to 122),
entered with the commands run so far. -/
def uninstallRefresh {σ : Type} (h : Host σ) (s : σ) (strat : installCommand)
    (done : List Ran) : Outcome σ :=
  match h.commandWithSudo s strat.command with
  | .error e => ⟨s, done, some e⟩
  | .ok cmd =>
    let r := h.CombinedOutput s cmd
    let t : Ran := ⟨strat.command, cmd.Stdin, r.2⟩
    match r.2.err with
    | some e => ⟨r.1, done ++ [t], some (commandFailed (strings.Join strat.command " ") e)⟩
    | none => ⟨r.1, done ++ [t], none⟩

/-- Method `(*linuxStore).Uninstall(path)`. -/
def Uninstall {σ : Type} (h : Host σ) (s : σ) (path : String) : Outcome σ :=
  match h.decodeCert s path with
  | .error e => ⟨s, [], some ("failed to parse root certificate: " ++ e)⟩
  | .ok serial =>
    match strategy (h.pathExists s) with
    | (_, some e) => ⟨s, [], some e⟩
    | (strat, none) =>
      match h.commandWithSudo s ["rm", "-f", certPath strat.rootsPattern serial] with
      | .error e => ⟨s, [], some e⟩
      | .ok cmd =>
        let r1 := h.CombinedOutput s cmd
        let t1 : Ran := ⟨["rm", "-f", certPath strat.rootsPattern serial], cmd.Stdin, r1.2⟩
        match r1.2.err with
        | some e => ⟨r1.1, [t1], some (commandFailed "rm" e)⟩
        | none =>
          if h.pathExists r1.1 (legacyFilename strat.rootsPattern) then
            match h.commandWithSudo r1.1 ["rm", "-f", legacyFilename strat.rootsPattern] with
            | .error e => ⟨r1.1, [t1], some e⟩
            | .ok cmdL =>
              let r2 := h.CombinedOutput r1.1 cmdL
              let t2 : Ran := ⟨["rm", "-f", legacyFilename strat.rootsPattern], cmdL.Stdin, r2.2⟩
              match r2.2.err with
              | some e => ⟨r2.1, [t1, t2], some (commandFailed "rm (legacy filename)" e)⟩
              | none => uninstallRefresh h r2.1 strat [t1, t2]
          else uninstallRefresh h r1.1 strat [t1]

/-! ## Concrete hosts -/

/-- A host without state whose answers are fixed tables: every file reads as `pem` and
parses to a certificate with serial `serial`, `dirs` says which paths exist,
`commandWithSudo` hands back the argument vector unchanged and `run` decides what each
command returns. -/
def tableHost (pem : List UInt8) (serial : Int) (dirs : String → Bool)
    (run : List String → CmdResult) : Host Unit where
  ReadFile _ _ := .ok pem
  decodeCert _ _ := .ok serial
  pathExists _ p := dirs p
  commandWithSudo _ argv := .ok ⟨argv, none⟩
  CombinedOutput _ cmd := ((), run cmd.Args)

/-- A host with `/usr/local/share/ca-certificates/` and a legacy file in it, certificate
serial 12345, on which the removal of the legacy file prints a message and exits with
status 1 and every other command succeeds. -/
def legacyFailHost : Host Unit :=
  tableHost [45, 45] 12345
    (fun p => p = "/usr/local/share/ca-certificates/" ∨
      p = "/usr/local/share/ca-certificates/mkcert-rootCA.crt")
    (fun argv =>
      if argv = ["rm", "-f", "/usr/local/share/ca-certificates/mkcert-rootCA.crt"]
      then ⟨"rm: cannot remove: Read-only file system", some "exit status 1"⟩
      else ⟨"", none⟩)

/-- What a command does to the paths of the reference file system: `tee p` creates `p`,
`rm -f p` deletes `p`, whether or not it was there, and every other command leaves the
paths alone. -/
def refRun (fs : List String) : List String → List String
  | ["tee", p] => p :: fs
  | ["rm", "-f", p] => fs.filter (fun q => q ≠ p)
  | _ => fs

/-- A reference file system: the state is the list of the paths that exist, commands act
on it as `refRun` says and never fail, `commandWithSudo` hands back the argument vector
unchanged. Every file reads as `pem` and parses to a certificate with serial `serial`. -/
def refHost (pem : List UInt8) (serial : Int) : Host (List String) where
  ReadFile _ _ := .ok pem
  decodeCert _ _ := .ok serial
  pathExists fs p := decide (p ∈ fs)
  commandWithSudo _ argv := .ok ⟨argv, none⟩
  CombinedOutput fs cmd := (refRun fs cmd.Args, ⟨"", none⟩)

/-- The host `h` with the answer of `pathExists` at the single path `p` replaced by `b`. -/
def Host.withExists {σ : Type} (h : Host σ) (p : String) (b : Bool) : Host σ :=
  { h with pathExists := fun s q => if q = p then b else h.pathExists s q }

/-- The host `h` with the captured output of every command rewritten by `f`. -/
def Host.withOutput {σ : Type} (h : Host σ) (f : String → String) : Host σ :=
  { h with CombinedOutput := fun s c =>
      ((h.CombinedOutput s c).1, ⟨f (h.CombinedOutput s c).2.output, (h.CombinedOutput s c).2.err⟩) }

/-! ## The candidate table of the specification -/

/-- One line of the candidate list: an anchor directory, the pattern of the file placed
in it, and the refresh command. -/
structure Candidate where
  dir : String
  filePattern : String
  refresh : List String
  deriving DecidableEq, Repr

/-- The ordered candidate list as the specification gives it, highest priority first. -/
def candidateTable : List Candidate :=
  [ ⟨"/etc/pki/ca-trust/source/anchors/", "%s.pem", ["update-ca-trust", "extract"]⟩,
    ⟨"/usr/local/share/ca-certificates/", "%s.crt", ["update-ca-certificates"]⟩,
    ⟨"/etc/ca-certificates/trust-source/anchors/", "%s.crt", ["trust", "extract-compat"]⟩,
    ⟨"/usr/share/pki/trust/anchors", "%s.pem", ["update-ca-certificates"]⟩ ]

/-- The four candidate directories, highest priority first. -/
def candidateDirs : List String := candidateTable.map Candidate.dir

/-- The `(rootsPattern, command)` pair bound to a candidate: the file pattern placed in
the directory (with a separator when the directory is written without its final slash),
and the refresh command. -/
def Candidate.bound (e : Candidate) : installCommand :=
  ⟨(if "/".data <:+ e.dir.data then e.dir else e.dir ++ "/") ++ e.filePattern, e.refresh⟩

/-- Strategy resolution as the specification words it: the strategy bound to the first
directory of the ordered list that exists, and the error when none does. -/
def resolveStrategy (pathExists : String → Bool) : installCommand × Option String :=
  match candidateTable.find? (fun e => pathExists e.dir) with
  | some e => (e.bound, none)
  | none => (installCommand.zero, some "no install strategy available")

/-- The pattern `P` is `pre`, one placeholder `%s` and `suf`, with no other `%`. -/
def PatternSplits (P pre suf : String) : Prop :=
  P = pre ++ "%s" ++ suf ∧ (∀ c ∈ pre.data, c ≠ '%') ∧ (∀ c ∈ suf.data, c ≠ '%')

/-! ## Facts about the library functions -/

theorem sprintfAux_step (c : Char) (cs : List Char) (o : Option (List Char)) (hc : c ≠ '%') :
    sprintfAux (c :: cs) o = c :: sprintfAux cs o := by
  rw [sprintfAux.eq_def]
  split <;> simp_all

theorem sprintfAux_plain (l : List Char) (h : ∀ c ∈ l, c ≠ '%') : sprintfAux l none = l := by
  induction l with
  | nil => simp [sprintfAux]
  | cons c cs ih =>
    rw [sprintfAux_step c cs none (h c (List.mem_cons_self _ _)),
      ih (fun d hd => h d (List.mem_cons_of_mem _ hd))]

theorem sprintfAux_subst (pre suf a : List Char) (h : ∀ c ∈ pre, c ≠ '%') :
    sprintfAux (pre ++ '%' :: 's' :: suf) (some a) = pre ++ a ++ sprintfAux suf none := by
  induction pre with
  | nil => simp [sprintfAux]
  | cons c cs ih =>
    rw [List.cons_append, sprintfAux_step c _ _ (h c (List.mem_cons_self _ _)),
      ih (fun d hd => h d (List.mem_cons_of_mem _ hd))]
    simp

/-- A pattern made of `pre`, one `%s` and `suf`, neither part holding a `%`, formats an
operand by putting it between the two parts. -/
theorem Sprintf_between (pre suf a : String) (hp : ∀ c ∈ pre.data, c ≠ '%')
    (hs : ∀ c ∈ suf.data, c ≠ '%') :
    fmt.Sprintf (pre ++ "%s" ++ suf) a = pre ++ a ++ suf := by
  apply String.ext
  simp only [fmt.Sprintf, String.data_append]
  have : pre.data ++ "%s".data ++ suf.data = pre.data ++ '%' :: 's' :: suf.data := by
    simp
  rw [this, sprintfAux_subst _ _ _ hp, sprintfAux_plain _ hs]

theorem digitChar_mem (m : Nat) (h : m < 10) : Nat.digitChar m ∈ decimalDigits := by
  revert m
  decide

theorem digitChar_value (m : Nat) (h : m < 10) : (Nat.digitChar m).toNat - 48 = m := by
  revert m
  decide

theorem digit_ne_space : ∀ c ∈ decimalDigits, c ≠ ' ' := by
  decide

theorem toDigitsCore_acc (fuel : Nat) : ∀ (n : Nat) (ds : List Char),
    Nat.toDigitsCore 10 fuel n ds = Nat.toDigitsCore 10 fuel n [] ++ ds := by
  induction fuel with
  | zero => intro n ds; simp [Nat.toDigitsCore]
  | succ f ih =>
    intro n ds
    simp only [Nat.toDigitsCore]
    split
    · simp
    · rw [ih (n / 10) (_ :: ds), ih (n / 10) [_]]
      simp

theorem toDigitsCore_mem (fuel : Nat) : ∀ (n : Nat) (c : Char),
    c ∈ Nat.toDigitsCore 10 fuel n [] → c ∈ decimalDigits := by
  induction fuel with
  | zero => intro n c hc; simp [Nat.toDigitsCore] at hc
  | succ f ih =>
    intro n c hc
    simp only [Nat.toDigitsCore] at hc
    split at hc
    · rw [List.mem_singleton] at hc
      exact hc ▸ digitChar_mem _ (Nat.mod_lt _ (by decide))
    · rw [toDigitsCore_acc, List.mem_append, List.mem_singleton] at hc
      rcases hc with hc | hc
      · exact ih _ _ hc
      · exact hc ▸ digitChar_mem _ (Nat.mod_lt _ (by decide))

theorem readDec_snoc (l : List Char) (c : Char) :
    readDec (l ++ [c]) = 10 * readDec l + (c.toNat - 48) := by
  simp [readDec, List.foldl_append]

theorem readDec_toDigitsCore (fuel : Nat) : ∀ n : Nat, n < fuel →
    readDec (Nat.toDigitsCore 10 fuel n []) = n := by
  induction fuel with
  | zero => intro n h; omega
  | succ f ih =>
    intro n h
    simp only [Nat.toDigitsCore]
    split
    · rename_i h0
      have hlt : n < 10 := by omega
      simp [readDec, Nat.mod_eq_of_lt hlt, digitChar_value n hlt]
    · rename_i h0
      rw [toDigitsCore_acc, readDec_snoc, ih (n / 10) (by omega),
        digitChar_value _ (Nat.mod_lt n (by decide : 0 < 10))]
      omega

/-- The decimal text of a natural number consists of decimal digits. -/
theorem natRepr_mem (n : Nat) (c : Char) (hc : c ∈ (Nat.repr n).data) :
    c ∈ decimalDigits :=
  toDigitsCore_mem (n + 1) n c hc

/-- The decimal text of a natural number determines the number. -/
theorem natRepr_inj (a b : Nat) (h : Nat.repr a = Nat.repr b) : a = b := by
  have ha := readDec_toDigitsCore (a + 1) a (Nat.lt_succ_self a)
  have hb := readDec_toDigitsCore (b + 1) b (Nat.lt_succ_self b)
  have hd : Nat.toDigitsCore 10 (a + 1) a [] = Nat.toDigitsCore 10 (b + 1) b [] :=
    congrArg String.data h
  rw [hd] at ha
  exact ha.symm.trans hb

/-- The decimal text of an integer consists of decimal digits and the minus sign. -/
theorem bigIntString_mem (n : Int) (c : Char) (hc : c ∈ (bigIntString n).data) :
    c = '-' ∨ c ∈ decimalDigits := by
  cases n with
  | ofNat m => exact Or.inr (natRepr_mem m c hc)
  | negSucc m =>
    simp only [bigIntString, String.data_append, List.mem_append] at hc
    rcases hc with hc | hc
    · left
      simpa using hc
    · exact Or.inr (natRepr_mem _ c hc)

/-- The decimal text of an integer determines the integer. -/
theorem bigIntString_inj (a b : Int) (h : bigIntString a = bigIntString b) : a = b := by
  have hminus : ¬ ('-' ∈ decimalDigits) := by decide
  cases a with
  | ofNat m =>
    cases b with
    | ofNat k => exact congrArg Int.ofNat (natRepr_inj m k h)
    | negSucc k =>
      exfalso
      apply hminus
      apply natRepr_mem m
      have : (Nat.repr m).data = ("-" ++ Nat.repr (k + 1)).data := congrArg String.data h
      rw [this]
      simp
  | negSucc m =>
    cases b with
    | ofNat k =>
      exfalso
      apply hminus
      apply natRepr_mem k
      have : ("-" ++ Nat.repr (m + 1)).data = (Nat.repr k).data := congrArg String.data h
      rw [← this]
      simp
    | negSucc k =>
      have hd : ("-" ++ Nat.repr (m + 1)).data = ("-" ++ Nat.repr (k + 1)).data :=
        congrArg String.data h
      simp only [String.data_append, List.append_cancel_left_eq] at hd
      have := natRepr_inj (m + 1) (k + 1) (String.ext hd)
      have hmk : m = k := by omega
      rw [hmk]

theorem replaceAux_space (l : List Char) :
    replaceAux [' '] ['_'] none 0 l = l.map (fun c => if c = ' ' then '_' else c) := by
  induction l with
  | nil => simp [replaceAux]
  | cons c cs ih =>
    simp only [replaceAux, List.map_cons]
    by_cases hc : c = ' '
    · subst hc
      simp [List.isPrefixOf, ih]
    · simp [List.isPrefixOf, ih, hc, Ne.symm hc]

theorem map_space_id (l : List Char) (h : ∀ c ∈ l, c ≠ ' ') :
    l.map (fun c => if c = ' ' then '_' else c) = l := by
  induction l with
  | nil => rfl
  | cons c cs ih =>
    simp only [List.map_cons, if_neg (h c (List.mem_cons_self _ _)),
      ih (fun d hd => h d (List.mem_cons_of_mem _ hd))]

/-- The canonical file name is the label with underscores followed by the decimal text of
the serial number. -/
theorem canonicalFileName_eq (n : Int) :
    canonicalFileName n = "mkcert_development_CA_" ++ bigIntString n := by
  have hne : ¬ ((" " : String) = "_" ∨ (-1 : Int) = 0) := by decide
  have hnil : ¬ ((" " : String).data = []) := by decide
  have hneg : ((-1 : Int) < 0) := by decide
  apply String.ext
  simp only [canonicalFileName, strings.Replace, if_neg hne, if_neg hnil, if_pos hneg,
    String.data_append]
  rw [replaceAux_space, List.map_append, map_space_id (bigIntString n).data]
  · rfl
  · intro c hc
    rcases bigIntString_mem n c hc with h | h
    · rw [h]; decide
    · exact digit_ne_space c h

/-! ## Facts about `strategy` -/

/-- The source function agrees with the specification's resolution on every host. -/
theorem strategy_eq_resolve (pe : String → Bool) : strategy pe = resolveStrategy pe := by
  unfold strategy resolveStrategy candidateTable
  by_cases h1 : pe "/etc/pki/ca-trust/source/anchors/" = true
  · simp only [List.find?, h1, if_true]; decide
  · by_cases h2 : pe "/usr/local/share/ca-certificates/" = true
    · simp only [List.find?, h1, h2, if_true, if_false]; decide
    · by_cases h3 : pe "/etc/ca-certificates/trust-source/anchors/" = true
      · simp only [List.find?, h1, h2, h3, if_true, if_false]; decide
      · by_cases h4 : pe "/usr/share/pki/trust/anchors" = true
        · simp only [List.find?, h1, h2, h3, h4, if_true, if_false]; decide
        · simp only [List.find?, h1, h2, h3, h4, if_false]
          rfl

/-- The result of `strategy` is a function of the existence of the four candidates. -/
theorem strategy_congr (pe pe' : String → Bool) (h : ∀ d ∈ candidateDirs, pe' d = pe d) :
    strategy pe' = strategy pe := by
  have h1 := h "/etc/pki/ca-trust/source/anchors/" (by decide)
  have h2 := h "/usr/local/share/ca-certificates/" (by decide)
  have h3 := h "/etc/ca-certificates/trust-source/anchors/" (by decide)
  have h4 := h "/usr/share/pki/trust/anchors" (by decide)
  simp only [strategy, h1, h2, h3, h4]

/-- The function `strategy` fails exactly when no candidate directory exists. -/
theorem strategy_err_iff (pe : String → Bool) :
    (strategy pe).2 ≠ none ↔ ∀ d ∈ candidateDirs, pe d = false := by
  rw [strategy_eq_resolve]
  unfold resolveStrategy
  cases hf : candidateTable.find? (fun e => pe e.dir) with
  | none =>
    simp only [ne_eq, reduceCtorEq, not_false_eq_true, true_iff]
    intro d hd
    obtain ⟨e, he, rfl⟩ := List.mem_map.1 hd
    have := List.find?_eq_none.1 hf e he
    simpa using this
  | some e =>
    simp only [ne_eq, not_true_eq_false, false_iff]
    intro hall
    have hp := List.find?_some hf
    have hm := List.mem_of_find?_eq_some hf
    have := hall e.dir (List.mem_map.2 ⟨e, hm, rfl⟩)
    simp [this] at hp

/-- A strategy returned without error is the pair bound to a line of the table. -/
theorem strategy_resolved (pe : String → Bool) (st : installCommand)
    (h : strategy pe = (st, none)) : ∃ e ∈ candidateTable, st = e.bound := by
  rw [strategy_eq_resolve] at h
  unfold resolveStrategy at h
  cases hf : candidateTable.find? (fun e => pe e.dir) with
  | none => rw [hf] at h; simp at h
  | some e =>
    rw [hf] at h
    simp only [Prod.mk.injEq, and_true] at h
    exact ⟨e, List.mem_of_find?_eq_some hf, h.symm⟩

/-- Each of the four patterns is a directory part, one `%s`, and `.pem` or `.crt`. -/
theorem bound_splits (e : Candidate) (he : e ∈ candidateTable) :
    ∃ pre suf : String, PatternSplits e.bound.rootsPattern pre suf ∧
      (suf = ".pem" ∨ suf = ".crt") := by
  simp only [candidateTable, List.mem_cons, List.mem_singleton, List.not_mem_nil,
    or_false] at he
  rcases he with rfl | rfl | rfl | rfl
  · exact ⟨"/etc/pki/ca-trust/source/anchors/", ".pem",
      ⟨by decide, by decide, by decide⟩, Or.inl rfl⟩
  · exact ⟨"/usr/local/share/ca-certificates/", ".crt",
      ⟨by decide, by decide, by decide⟩, Or.inr rfl⟩
  · exact ⟨"/etc/ca-certificates/trust-source/anchors/", ".crt",
      ⟨by decide, by decide, by decide⟩, Or.inr rfl⟩
  · exact ⟨"/usr/share/pki/trust/anchors/", ".pem",
      ⟨by decide, by decide, by decide⟩, Or.inl rfl⟩

/-- No refresh command is `tee` or `rm`. -/
theorem refresh_head (e : Candidate) (he : e ∈ candidateTable) :
    e.bound.command.head? ≠ some "tee" ∧ e.bound.command.head? ≠ some "rm" := by
  revert e
  decide

/-! ## Facts about the paths -/

theorem certPath_split (P pre suf : String) (h : PatternSplits P pre suf) (n : Int) :
    certPath P n = pre ++ ("mkcert_development_CA_" ++ bigIntString n) ++ suf := by
  obtain ⟨hP, hp, hs⟩ := h
  rw [certPath, hP, Sprintf_between pre suf _ hp hs, canonicalFileName_eq]

theorem legacyFilename_split (P pre suf : String) (h : PatternSplits P pre suf) :
    legacyFilename P = pre ++ "mkcert-rootCA" ++ suf := by
  obtain ⟨hP, hp, hs⟩ := h
  rw [legacyFilename, hP, Sprintf_between pre suf _ hp hs]

/-- Two serial numbers with the same path are equal. -/
theorem certPath_inj (P pre suf : String) (h : PatternSplits P pre suf) (a b : Int)
    (hab : certPath P a = certPath P b) : a = b := by
  rw [certPath_split P pre suf h, certPath_split P pre suf h] at hab
  have hd := congrArg String.data hab
  simp only [String.data_append, List.append_cancel_left_eq,
    List.append_cancel_right_eq] at hd
  exact bigIntString_inj a b (String.ext hd)

/-- The legacy path is the path of no serial number. -/
theorem certPath_ne_legacy (P pre suf : String) (h : PatternSplits P pre suf) (n : Int) :
    certPath P n ≠ legacyFilename P := by
  rw [certPath_split P pre suf h, legacyFilename_split P pre suf h]
  intro hab
  have hd := congrArg String.data hab
  have h1 : ("mkcert_development_CA_" : String).data =
      ['m', 'k', 'c', 'e', 'r', 't', '_'] ++ "development_CA_".data := rfl
  have h2 : ("mkcert-rootCA" : String).data =
      ['m', 'k', 'c', 'e', 'r', 't', '-'] ++ "rootCA".data := rfl
  simp only [String.data_append, List.append_cancel_left_eq, List.append_cancel_right_eq,
    h1, h2, List.cons_append, List.cons.injEq, true_and] at hd
  exact absurd hd.1 (by decide)

/-- A path whose text ends in `.pem` or `.crt` is none of the candidate directories. -/
theorem not_candidateDir (x suf : String) (hs : suf = ".pem" ∨ suf = ".crt") :
    x ++ suf ∉ candidateDirs := by
  intro hmem
  have hsuf : suf.data <:+ (x ++ suf).data := by
    rw [String.data_append]
    exact List.suffix_append _ _
  have hall : ∀ d ∈ candidateDirs, ¬ (".pem".data <:+ d.data) ∧ ¬ (".crt".data <:+ d.data) := by
    decide
  rcases hs with rfl | rfl
  · exact (hall _ hmem).1 hsuf
  · exact (hall _ hmem).2 hsuf

/-! ## Strategy resolution -/

/-- C1: on every host where at least one of the four candidate directories exists,
`strategy` returns, without error, the pair bound to the first existing directory of the
ordered table (every directory before it does not exist); it never returns the pair of a
directory of lower priority than one that exists; and any other host on which the same
four paths exist or not gets the same result. -/
theorem strategy_first_existing (pe : String → Bool)
    (h : ∃ d ∈ candidateDirs, pe d = true) :
    (∃ (e : Candidate) (before after : List Candidate),
        candidateTable = before ++ e :: after ∧ pe e.dir = true ∧
        (∀ x ∈ before, pe x.dir = false) ∧ strategy pe = (e.bound, none)) ∧
    (∀ i j : Fin candidateTable.length, i < j → pe (candidateTable.get i).dir = true →
        (strategy pe).1 ≠ (candidateTable.get j).bound) ∧
    (∀ pe' : String → Bool, (∀ d ∈ candidateDirs, pe' d = pe d) →
        strategy pe' = strategy pe) := by
  refine ⟨?_, ?_, fun pe' hpe => strategy_congr pe pe' hpe⟩
  · rw [strategy_eq_resolve]
    unfold resolveStrategy
    cases hf : candidateTable.find? (fun e => pe e.dir) with
    | none =>
      exfalso
      obtain ⟨d, hd, hpd⟩ := h
      obtain ⟨e, he, rfl⟩ := List.mem_map.1 hd
      have := List.find?_eq_none.1 hf e he
      simp [hpd] at this
    | some e =>
      obtain ⟨hpe, before, after, htab, hbefore⟩ := List.find?_eq_some.1 hf
      refine ⟨e, before, after, htab, by simpa using hpe, ?_, rfl⟩
      intro x hx
      simpa using hbefore x hx
  · intro i j hij hi
    fin_cases i <;> fin_cases j <;>
      first
      | exact absurd hij (by decide)
      | (simp only [candidateTable, List.get_eq_getElem, List.getElem_cons_zero,
          List.getElem_cons_succ] at hi ⊢
         unfold strategy
         split_ifs <;> decide)

/-- Witness of C1: a host with the second and the fourth candidate directory. -/
theorem strategy_first_existing_witness :
    (∃ (e : Candidate) (before after : List Candidate),
        candidateTable = before ++ e :: after ∧
        (fun p => decide (p = "/usr/local/share/ca-certificates/" ∨
          p = "/usr/share/pki/trust/anchors")) e.dir = true ∧
        (∀ x ∈ before, (fun p => decide (p = "/usr/local/share/ca-certificates/" ∨
          p = "/usr/share/pki/trust/anchors")) x.dir = false) ∧
        strategy (fun p => decide (p = "/usr/local/share/ca-certificates/" ∨
          p = "/usr/share/pki/trust/anchors")) = (e.bound, none)) ∧
    strategy (fun p => decide (p = "/usr/local/share/ca-certificates/" ∨
          p = "/usr/share/pki/trust/anchors")) =
      (⟨"/usr/local/share/ca-certificates/%s.crt", ["update-ca-certificates"]⟩, none) :=
  ⟨(strategy_first_existing
      (fun p => decide (p = "/usr/local/share/ca-certificates/" ∨
          p = "/usr/share/pki/trust/anchors"))
      ⟨"/usr/share/pki/trust/anchors", by decide, by decide⟩).1, by decide⟩

/-- C2: `strategy` returns an error exactly when none of the four candidate directories
exists, and then the error is `no install strategy available` next to the zero
`installCommand`; on such a host `Install` and `Uninstall` run no command and fail, and
once the certificate has been read and parsed the error they return is that one. -/
theorem strategy_error_iff_no_candidate {σ : Type} (h : Host σ) (s : σ) (path : String) :
    ((strategy (h.pathExists s)).2 ≠ none ↔
      ∀ d ∈ candidateDirs, h.pathExists s d = false) ∧
    ((∀ d ∈ candidateDirs, h.pathExists s d = false) →
      strategy (h.pathExists s) =
        (installCommand.zero, some "no install strategy available") ∧
      (Install h s path).trace = [] ∧ (Install h s path).err ≠ none ∧
      (∀ pem n, h.ReadFile s path = .ok pem → h.decodeCert s path = .ok n →
        (Install h s path).err = some "no install strategy available") ∧
      (Uninstall h s path).trace = [] ∧ (Uninstall h s path).err ≠ none ∧
      (∀ n, h.decodeCert s path = .ok n →
        (Uninstall h s path).err = some "no install strategy available")) := by
  refine ⟨strategy_err_iff _, fun hall => ?_⟩
  have hs : strategy (h.pathExists s) =
      (installCommand.zero, some "no install strategy available") := by
    have h1 := hall "/etc/pki/ca-trust/source/anchors/" (by decide)
    have h2 := hall "/usr/local/share/ca-certificates/" (by decide)
    have h3 := hall "/etc/ca-certificates/trust-source/anchors/" (by decide)
    have h4 := hall "/usr/share/pki/trust/anchors" (by decide)
    simp [strategy, h1, h2, h3, h4]
  refine ⟨hs, ?_, ?_, ?_, ?_, ?_, ?_⟩
  · unfold Install
    cases h.ReadFile s path <;> cases h.decodeCert s path <;> simp [hs]
  · unfold Install
    cases h.ReadFile s path <;> cases h.decodeCert s path <;> simp [hs]
  · intro pem n hr hd
    simp [Install, hr, hd, hs]
  · unfold Uninstall
    cases h.decodeCert s path <;> simp [hs]
  · unfold Uninstall
    cases h.decodeCert s path <;> simp [hs]
  · intro n hd
    simp [Uninstall, hd, hs]

/-- Witness of C2: a host with none of the candidate directories. -/
theorem strategy_error_iff_no_candidate_witness :
    (Install (tableHost [45, 45] 7 (fun _ => false) (fun _ => ⟨"", none⟩)) () "ca.pem").err
        = some "no install strategy available" ∧
    (Uninstall (tableHost [45, 45] 7 (fun _ => false) (fun _ => ⟨"", none⟩)) () "ca.pem").err
        = some "no install strategy available" :=
  have w := (strategy_error_iff_no_candidate
    (tableHost [45, 45] 7 (fun _ => false) (fun _ => ⟨"", none⟩)) () "ca.pem").2
    (fun _ _ => rfl)
  ⟨w.2.2.2.1 [45, 45] 7 rfl rfl, w.2.2.2.2.2.2 7 rfl⟩

/-! ## File names -/

/-- C3: two different serial numbers have different canonical file names (the label
`mkcert development CA ` followed by the decimal text of the serial, every space replaced
by an underscore), and under each strategy that `strategy` can return the two paths built
from the pattern differ as well. -/
theorem canonical_names_distinct (s1 s2 : Int) (hne : s1 ≠ s2) :
    canonicalFileName s1 ≠ canonicalFileName s2 ∧
    ∀ (pe : String → Bool) (st : installCommand), strategy pe = (st, none) →
      certPath st.rootsPattern s1 ≠ certPath st.rootsPattern s2 := by
  constructor
  · intro heq
    rw [canonicalFileName_eq, canonicalFileName_eq] at heq
    have hd := congrArg String.data heq
    simp only [String.data_append, List.append_cancel_left_eq] at hd
    exact hne (bigIntString_inj s1 s2 (String.ext hd))
  · intro pe st hst heq
    obtain ⟨e, he, rfl⟩ := strategy_resolved pe st hst
    obtain ⟨pre, suf, hsplit, _⟩ := bound_splits e he
    exact hne (certPath_inj _ pre suf hsplit s1 s2 heq)

/-- Witness of C3: the serial numbers 12345 and 12346. -/
theorem canonical_names_distinct_witness :
    canonicalFileName 12345 ≠ canonicalFileName 12346 :=
  (canonical_names_distinct 12345 12346 (by decide)).1

/-! ## Install -/

/-- C4: for a readable, well-formed certificate with serial `n` on a host whose strategy
resolves to `st`, when the two commands `Install` issues are built and succeed (`tee` on
the path, with the bytes read from the certificate file as standard input, and then the
refresh command of `st`), `Install` returns no error and has run exactly these two
commands, in this order. The path is the pattern with its placeholder replaced by
`mkcert_development_CA_` followed by the decimal text of `n`, a name without a space; the
pattern `/a/%s.pem` and the serial 12345 give `/a/mkcert_development_CA_12345.pem`. -/
theorem Install_success {σ : Type} (h : Host σ) (s : σ) (path : String)
    (pem : List UInt8) (n : Int) (st : installCommand) (cmd cmd2 : ExecCmd)
    (hread : h.ReadFile s path = .ok pem) (hdec : h.decodeCert s path = .ok n)
    (hstrat : strategy (h.pathExists s) = (st, none))
    (hcmd : h.commandWithSudo s ["tee", certPath st.rootsPattern n] = .ok cmd)
    (he1 : (h.CombinedOutput s { cmd with Stdin := some pem }).2.err = none)
    (hcmd2 : h.commandWithSudo (h.CombinedOutput s { cmd with Stdin := some pem }).1
      st.command = .ok cmd2)
    (he2 : (h.CombinedOutput (h.CombinedOutput s { cmd with Stdin := some pem }).1
      cmd2).2.err = none) :
    (Install h s path).err = none ∧
    (Install h s path).trace =
      [⟨["tee", certPath st.rootsPattern n], some pem,
          (h.CombinedOutput s { cmd with Stdin := some pem }).2⟩,
       ⟨st.command, cmd2.Stdin,
          (h.CombinedOutput (h.CombinedOutput s { cmd with Stdin := some pem }).1 cmd2).2⟩] ∧
    (∃ pre suf : String, PatternSplits st.rootsPattern pre suf ∧
      certPath st.rootsPattern n = pre ++ ("mkcert_development_CA_" ++ bigIntString n) ++ suf) ∧
    (∀ c ∈ ("mkcert_development_CA_" ++ bigIntString n).data, c ≠ ' ') ∧
    certPath "/a/%s.pem" 12345 = "/a/mkcert_development_CA_12345.pem" := by
  refine ⟨?_, ?_, ?_, ?_, by decide⟩
  · simp [Install, hread, hdec, hstrat, hcmd, hcmd2, he1, he2]
  · simp [Install, hread, hdec, hstrat, hcmd, hcmd2, he1, he2]
  · obtain ⟨e, he, rfl⟩ := strategy_resolved _ st hstrat
    obtain ⟨pre, suf, hsplit, _⟩ := bound_splits e he
    exact ⟨pre, suf, hsplit, certPath_split _ pre suf hsplit n⟩
  · intro c hc
    rw [String.data_append, List.mem_append] at hc
    rcases hc with hc | hc
    · revert c
      decide
    · rcases bigIntString_mem n c hc with hm | hm
      · rw [hm]; decide
      · exact digit_ne_space c hm

/-- Witness of C4: serial 12345 on a host with `/usr/local/share/ca-certificates/`, on
which a command that `Install` does not issue fails. -/
theorem Install_success_witness :
    (Install (tableHost [45, 45] 12345 (fun p => p = "/usr/local/share/ca-certificates/")
      (fun argv => if argv = ["false"] then ⟨"", some "exit status 1"⟩ else ⟨"", none⟩))
      () "ca.pem").err = none ∧
    (Install (tableHost [45, 45] 12345 (fun p => p = "/usr/local/share/ca-certificates/")
      (fun argv => if argv = ["false"] then ⟨"", some "exit status 1"⟩ else ⟨"", none⟩))
      () "ca.pem").trace =
      [⟨["tee", "/usr/local/share/ca-certificates/mkcert_development_CA_12345.crt"],
          some [45, 45], ⟨"", none⟩⟩,
       ⟨["update-ca-certificates"], none, ⟨"", none⟩⟩] :=
  have w := Install_success
    (tableHost [45, 45] 12345 (fun p => p = "/usr/local/share/ca-certificates/")
      (fun argv => if argv = ["false"] then ⟨"", some "exit status 1"⟩ else ⟨"", none⟩))
    () "ca.pem" [45, 45] 12345
    ⟨"/usr/local/share/ca-certificates/%s.crt", ["update-ca-certificates"]⟩
    ⟨["tee", "/usr/local/share/ca-certificates/mkcert_development_CA_12345.crt"], none⟩
    ⟨["update-ca-certificates"], none⟩
    rfl rfl (by decide) rfl (by decide) rfl (by decide)
  ⟨w.1, w.2.1.trans (by decide)⟩

/-- C5: when the `tee` command run by `Install` fails, `Install` returns an error, `tee` is
the only command it has run and the refresh command is not among the commands run; when
reading the file, parsing the certificate or resolving the strategy fails, `Install`
returns an error and has run no command. -/
theorem Install_failure_stops {σ : Type} (h : Host σ) (s : σ) (path : String) :
    (∀ (pem : List UInt8) (n : Int) (st : installCommand) (cmd : ExecCmd) (e : String),
      h.ReadFile s path = .ok pem → h.decodeCert s path = .ok n →
      strategy (h.pathExists s) = (st, none) →
      h.commandWithSudo s ["tee", certPath st.rootsPattern n] = .ok cmd →
      (h.CombinedOutput s { cmd with Stdin := some pem }).2.err = some e →
      (Install h s path).err = some (commandFailed "tee" e) ∧
      (Install h s path).trace.map Ran.argv = [["tee", certPath st.rootsPattern n]] ∧
      st.command ∉ (Install h s path).trace.map Ran.argv) ∧
    (((∃ e, h.ReadFile s path = .error e) ∨ (∃ e, h.decodeCert s path = .error e) ∨
        (strategy (h.pathExists s)).2 ≠ none) →
      (Install h s path).err ≠ none ∧ (Install h s path).trace = []) := by
  constructor
  · intro pem n st cmd e hread hdec hstrat hcmd herr
    have htr : (Install h s path).trace.map Ran.argv =
        [["tee", certPath st.rootsPattern n]] := by
      simp [Install, hread, hdec, hstrat, hcmd, herr]
    refine ⟨by simp [Install, hread, hdec, hstrat, hcmd, herr], htr, ?_⟩
    rw [htr, List.mem_singleton]
    intro hc
    obtain ⟨c, hcand, rfl⟩ := strategy_resolved _ st hstrat
    have := (refresh_head c hcand).1
    rw [hc] at this
    exact this rfl
  · intro hfail
    unfold Install
    rcases hfail with ⟨e, he⟩ | ⟨e, he⟩ | hs
    · simp [he]
    · cases h.ReadFile s path <;> simp [he]
    · rcases hst : strategy (h.pathExists s) with ⟨st, _ | e⟩
      · rw [hst] at hs
        exact absurd rfl hs
      · cases h.ReadFile s path <;> cases h.decodeCert s path <;> simp

/-- Witness of C5: a host on which `tee` exits with a non-zero status. -/
theorem Install_failure_stops_witness :
    (Install (tableHost [45, 45] 12345 (fun p => p = "/usr/local/share/ca-certificates/")
      (fun argv => if argv.head? = some "tee" then ⟨"tee: Permission denied", some "exit status 1"⟩
        else ⟨"", none⟩)) () "ca.pem").err = some (commandFailed "tee" "exit status 1") :=
  ((Install_failure_stops
    (tableHost [45, 45] 12345 (fun p => p = "/usr/local/share/ca-certificates/")
      (fun argv => if argv.head? = some "tee" then ⟨"tee: Permission denied", some "exit status 1"⟩
        else ⟨"", none⟩)) () "ca.pem").1 [45, 45] 12345
    ⟨"/usr/local/share/ca-certificates/%s.crt", ["update-ca-certificates"]⟩
    ⟨["tee", "/usr/local/share/ca-certificates/mkcert_development_CA_12345.crt"], none⟩
    "exit status 1" rfl rfl (by decide) rfl (by decide)).1

/-! ## Uninstall -/

/-- After a successful first removal, with no legacy path and a refresh command that is
built: the refresh is run, and `Uninstall` returns no error when it succeeds. -/
theorem uninstall_without_legacy {σ : Type} (h : Host σ) (s : σ) (path : String)
    (n : Int) (st : installCommand) (cmd cmdR : ExecCmd)
    (hdec : h.decodeCert s path = .ok n)
    (hstrat : strategy (h.pathExists s) = (st, none))
    (hcmd : h.commandWithSudo s ["rm", "-f", certPath st.rootsPattern n] = .ok cmd)
    (he1 : (h.CombinedOutput s cmd).2.err = none)
    (hl : h.pathExists (h.CombinedOutput s cmd).1 (legacyFilename st.rootsPattern) = false)
    (hcmdR : h.commandWithSudo (h.CombinedOutput s cmd).1 st.command = .ok cmdR) :
    (Uninstall h s path).trace.map Ran.argv =
      [["rm", "-f", certPath st.rootsPattern n], st.command] ∧
    ((h.CombinedOutput (h.CombinedOutput s cmd).1 cmdR).2.err = none →
      (Uninstall h s path).err = none) := by
  rcases he3 : (h.CombinedOutput (h.CombinedOutput s cmd).1 cmdR).2.err with _ | e3
  · simp [Uninstall, uninstallRefresh, hdec, hstrat, hcmd, he1, hl, hcmdR, he3]
  · simp [Uninstall, uninstallRefresh, hdec, hstrat, hcmd, he1, hl, hcmdR, he3]

/-- After a successful first removal and a successful removal of an existing legacy path,
with a refresh command that is built: the refresh is run, and `Uninstall` returns no
error when it succeeds. -/
theorem uninstall_with_legacy {σ : Type} (h : Host σ) (s : σ) (path : String)
    (n : Int) (st : installCommand) (cmd cmdL cmdR : ExecCmd)
    (hdec : h.decodeCert s path = .ok n)
    (hstrat : strategy (h.pathExists s) = (st, none))
    (hcmd : h.commandWithSudo s ["rm", "-f", certPath st.rootsPattern n] = .ok cmd)
    (he1 : (h.CombinedOutput s cmd).2.err = none)
    (hl : h.pathExists (h.CombinedOutput s cmd).1 (legacyFilename st.rootsPattern) = true)
    (hcmdL : h.commandWithSudo (h.CombinedOutput s cmd).1
      ["rm", "-f", legacyFilename st.rootsPattern] = .ok cmdL)
    (he2 : (h.CombinedOutput (h.CombinedOutput s cmd).1 cmdL).2.err = none)
    (hcmdR : h.commandWithSudo (h.CombinedOutput (h.CombinedOutput s cmd).1 cmdL).1
      st.command = .ok cmdR) :
    (Uninstall h s path).trace.map Ran.argv =
      [["rm", "-f", certPath st.rootsPattern n],
       ["rm", "-f", legacyFilename st.rootsPattern], st.command] ∧
    ((h.CombinedOutput (h.CombinedOutput (h.CombinedOutput s cmd).1 cmdL).1 cmdR).2.err = none →
      (Uninstall h s path).err = none) := by
  rcases he3 : (h.CombinedOutput (h.CombinedOutput (h.CombinedOutput s cmd).1 cmdL).1
    cmdR).2.err with _ | e3
  · simp [Uninstall, uninstallRefresh, hdec, hstrat, hcmd, he1, hl, hcmdL, he2, hcmdR, he3]
  · simp [Uninstall, uninstallRefresh, hdec, hstrat, hcmd, he1, hl, hcmdL, he2, hcmdR, he3]

/-- C7: legacy migration. For a well-formed certificate with serial `n` on a host whose
strategy resolves to `st`, once `rm -f` on the current-name path has been built and has
succeeded, `Uninstall` looks whether the legacy path exists. When it does, and the
`rm -f` on it and then the refresh command are built and succeed, `Uninstall` returns no
error and has run exactly the two removals and the refresh, in this order: both files are
removed. When it does not, and the refresh command is built and succeeds, `Uninstall`
returns no error and has run exactly the first removal and the refresh. Only the commands
`Uninstall` issues are assumed to succeed. The legacy path is the pattern with its
placeholder replaced by `mkcert-rootCA`, and it is the current-name path of no serial
number. -/
theorem Uninstall_success {σ : Type} (h : Host σ) (s : σ) (path : String)
    (n : Int) (st : installCommand) (cmd : ExecCmd)
    (hdec : h.decodeCert s path = .ok n)
    (hstrat : strategy (h.pathExists s) = (st, none))
    (hcmd : h.commandWithSudo s ["rm", "-f", certPath st.rootsPattern n] = .ok cmd)
    (he1 : (h.CombinedOutput s cmd).2.err = none) :
    (h.pathExists (h.CombinedOutput s cmd).1 (legacyFilename st.rootsPattern) = true →
      ∀ cmdL cmdR : ExecCmd,
      h.commandWithSudo (h.CombinedOutput s cmd).1
        ["rm", "-f", legacyFilename st.rootsPattern] = .ok cmdL →
      (h.CombinedOutput (h.CombinedOutput s cmd).1 cmdL).2.err = none →
      h.commandWithSudo (h.CombinedOutput (h.CombinedOutput s cmd).1 cmdL).1 st.command
        = .ok cmdR →
      (h.CombinedOutput (h.CombinedOutput (h.CombinedOutput s cmd).1 cmdL).1 cmdR).2.err
        = none →
      (Uninstall h s path).err = none ∧
      (Uninstall h s path).trace.map Ran.argv =
        [["rm", "-f", certPath st.rootsPattern n],
         ["rm", "-f", legacyFilename st.rootsPattern], st.command]) ∧
    (h.pathExists (h.CombinedOutput s cmd).1 (legacyFilename st.rootsPattern) = false →
      ∀ cmdR : ExecCmd,
      h.commandWithSudo (h.CombinedOutput s cmd).1 st.command = .ok cmdR →
      (h.CombinedOutput (h.CombinedOutput s cmd).1 cmdR).2.err = none →
      (Uninstall h s path).err = none ∧
      (Uninstall h s path).trace.map Ran.argv =
        [["rm", "-f", certPath st.rootsPattern n], st.command]) ∧
    (∃ pre suf : String, PatternSplits st.rootsPattern pre suf ∧
      legacyFilename st.rootsPattern = pre ++ "mkcert-rootCA" ++ suf) ∧
    ∀ m : Int, legacyFilename st.rootsPattern ≠ certPath st.rootsPattern m := by
  refine ⟨fun hl cmdL cmdR hcmdL he2 hcmdR he3 => ?_, fun hl cmdR hcmdR he3 => ?_, ?_⟩
  · have w := uninstall_with_legacy h s path n st cmd cmdL cmdR hdec hstrat hcmd he1 hl
      hcmdL he2 hcmdR
    exact ⟨w.2 he3, w.1⟩
  · have w := uninstall_without_legacy h s path n st cmd cmdR hdec hstrat hcmd he1 hl hcmdR
    exact ⟨w.2 he3, w.1⟩
  · obtain ⟨c, hcand, rfl⟩ := strategy_resolved _ st hstrat
    obtain ⟨pre, suf, hsplit, _⟩ := bound_splits c hcand
    exact ⟨⟨pre, suf, hsplit, legacyFilename_split _ pre suf hsplit⟩,
      fun m => (certPath_ne_legacy _ pre suf hsplit m).symm⟩

/-- Witness of C7: a file system holding a current-name and a legacy file, on a host where
a command that `Uninstall` does not issue fails; both files are removed. -/
theorem Uninstall_success_witness :
    (Uninstall { refHost [45, 45] 12345 with
        CombinedOutput := fun fs c =>
          if c.Args = ["false"] then (fs, ⟨"", some "exit status 1"⟩)
          else (refRun fs c.Args, ⟨"", none⟩) }
      ["/usr/local/share/ca-certificates/",
       "/usr/local/share/ca-certificates/mkcert_development_CA_12345.crt",
       "/usr/local/share/ca-certificates/mkcert-rootCA.crt"] "ca.pem").err = none ∧
    (Uninstall { refHost [45, 45] 12345 with
        CombinedOutput := fun fs c =>
          if c.Args = ["false"] then (fs, ⟨"", some "exit status 1"⟩)
          else (refRun fs c.Args, ⟨"", none⟩) }
      ["/usr/local/share/ca-certificates/",
       "/usr/local/share/ca-certificates/mkcert_development_CA_12345.crt",
       "/usr/local/share/ca-certificates/mkcert-rootCA.crt"] "ca.pem").trace.map Ran.argv =
      [["rm", "-f", "/usr/local/share/ca-certificates/mkcert_development_CA_12345.crt"],
       ["rm", "-f", "/usr/local/share/ca-certificates/mkcert-rootCA.crt"],
       ["update-ca-certificates"]] ∧
    (Uninstall { refHost [45, 45] 12345 with
        CombinedOutput := fun fs c =>
          if c.Args = ["false"] then (fs, ⟨"", some "exit status 1"⟩)
          else (refRun fs c.Args, ⟨"", none⟩) }
      ["/usr/local/share/ca-certificates/",
       "/usr/local/share/ca-certificates/mkcert_development_CA_12345.crt",
       "/usr/local/share/ca-certificates/mkcert-rootCA.crt"] "ca.pem").state =
      ["/usr/local/share/ca-certificates/"] :=
  have w := (Uninstall_success { refHost [45, 45] 12345 with
        CombinedOutput := fun fs c =>
          if c.Args = ["false"] then (fs, ⟨"", some "exit status 1"⟩)
          else (refRun fs c.Args, ⟨"", none⟩) }
      ["/usr/local/share/ca-certificates/",
       "/usr/local/share/ca-certificates/mkcert_development_CA_12345.crt",
       "/usr/local/share/ca-certificates/mkcert-rootCA.crt"] "ca.pem" 12345
      ⟨"/usr/local/share/ca-certificates/%s.crt", ["update-ca-certificates"]⟩
      ⟨["rm", "-f", "/usr/local/share/ca-certificates/mkcert_development_CA_12345.crt"], none⟩
      rfl (by decide) rfl (by decide)).1 (by decide)
      ⟨["rm", "-f", "/usr/local/share/ca-certificates/mkcert-rootCA.crt"], none⟩
      ⟨["update-ca-certificates"], none⟩ rfl (by decide) rfl (by decide)
  ⟨w.1, w.2.trans (by decide), by decide⟩

/-- C10: `Uninstall` is a linear sequence that stops at its first failure. A parse or a
strategy failure runs no command. Otherwise the commands run are an initial part of
`rm -f` on the current-name path, `rm -f` on the legacy path (present only when that path
exists after the first removal), the refresh command; every command before the last one
run has succeeded, a failed command makes `Uninstall` fail, no command is run twice, and
when `Uninstall` returns no error the whole sequence has been run. -/
theorem Uninstall_linear {σ : Type} (h : Host σ) (s : σ) (path : String) :
    (((∃ e, h.decodeCert s path = .error e) ∨ (strategy (h.pathExists s)).2 ≠ none) →
      (Uninstall h s path).trace = [] ∧ (Uninstall h s path).err ≠ none) ∧
    (∀ (n : Int) (st : installCommand), h.decodeCert s path = .ok n →
      strategy (h.pathExists s) = (st, none) →
      (∀ e, h.commandWithSudo s ["rm", "-f", certPath st.rootsPattern n] = .error e →
        (Uninstall h s path).trace = [] ∧ (Uninstall h s path).err ≠ none) ∧
      (∀ cmd, h.commandWithSudo s ["rm", "-f", certPath st.rootsPattern n] = .ok cmd →
        (Uninstall h s path).trace.map Ran.argv <+:
          ["rm", "-f", certPath st.rootsPattern n] ::
            ((if h.pathExists (h.CombinedOutput s cmd).1 (legacyFilename st.rootsPattern) = true
              then [["rm", "-f", legacyFilename st.rootsPattern]] else []) ++ [st.command]) ∧
        ((Uninstall h s path).err = none →
          (Uninstall h s path).trace.map Ran.argv =
            ["rm", "-f", certPath st.rootsPattern n] ::
              ((if h.pathExists (h.CombinedOutput s cmd).1 (legacyFilename st.rootsPattern) = true
                then [["rm", "-f", legacyFilename st.rootsPattern]] else []) ++ [st.command]))) ∧
      ((Uninstall h s path).trace.map Ran.argv).Nodup ∧
      (∀ r ∈ (Uninstall h s path).trace.dropLast, r.result.err = none) ∧
      (∀ r ∈ (Uninstall h s path).trace, r.result.err ≠ none →
        (Uninstall h s path).err ≠ none)) := by
  constructor
  · intro hfail
    unfold Uninstall
    rcases hfail with ⟨e, he⟩ | hs
    · simp [he]
    · rcases hst : strategy (h.pathExists s) with ⟨st, _ | e⟩
      · rw [hst] at hs
        exact absurd rfl hs
      · cases h.decodeCert s path <;> simp
  · intro n st hdec hstrat
    obtain ⟨c, hcand, rfl⟩ := strategy_resolved _ st hstrat
    obtain ⟨pre, suf, hsplit, _⟩ := bound_splits c hcand
    have hAL := certPath_ne_legacy _ pre suf hsplit n
    have hR := (refresh_head c hcand).2
    have hRA : ∀ x : String, c.bound.command ≠ ["rm", "-f", x] := by
      intro x hx
      rw [hx] at hR
      exact hR rfl
    rcases hcmd : h.commandWithSudo s ["rm", "-f", certPath c.bound.rootsPattern n]
      with e | cmd
    · simp [Uninstall, hdec, hstrat, hcmd]
    · rcases he1 : (h.CombinedOutput s cmd).2.err with _ | e1
      · by_cases hl : h.pathExists (h.CombinedOutput s cmd).1
          (legacyFilename c.bound.rootsPattern) = true
        · rcases hcmdL : h.commandWithSudo (h.CombinedOutput s cmd).1
            ["rm", "-f", legacyFilename c.bound.rootsPattern] with e | cmdL
          · simp [Uninstall, hdec, hstrat, hcmd, he1, hl, hcmdL]
          · rcases he2 : (h.CombinedOutput (h.CombinedOutput s cmd).1 cmdL).2.err
              with _ | e2
            · rcases hcmdR : h.commandWithSudo
                (h.CombinedOutput (h.CombinedOutput s cmd).1 cmdL).1 c.bound.command
                with e | cmdR
              · simp [Uninstall, uninstallRefresh, hdec, hstrat, hcmd, he1, hl, hcmdL, he2,
                  hcmdR, hAL]
              · rcases he3 : (h.CombinedOutput
                  (h.CombinedOutput (h.CombinedOutput s cmd).1 cmdL).1 cmdR).2.err
                  with _ | e3
                · simp [Uninstall, uninstallRefresh, hdec, hstrat, hcmd, he1, hl, hcmdL,
                    he2, hcmdR, he3, hAL, hRA, Ne.symm (hRA _)]
                · simp [Uninstall, uninstallRefresh, hdec, hstrat, hcmd, he1, hl, hcmdL,
                    he2, hcmdR, he3, hAL, hRA, Ne.symm (hRA _)]
            · simp [Uninstall, hdec, hstrat, hcmd, he1, hl, hcmdL, he2, hAL]
        · rcases hcmdR : h.commandWithSudo (h.CombinedOutput s cmd).1 c.bound.command
            with e | cmdR
          · simp [Uninstall, uninstallRefresh, hdec, hstrat, hcmd, he1, hl, hcmdR]
          · rcases he3 : (h.CombinedOutput (h.CombinedOutput s cmd).1 cmdR).2.err
              with _ | e3
            · simp [Uninstall, uninstallRefresh, hdec, hstrat, hcmd, he1, hl, hcmdR, he3,
                hRA, Ne.symm (hRA _)]
            · simp [Uninstall, uninstallRefresh, hdec, hstrat, hcmd, he1, hl, hcmdR, he3,
                hRA, Ne.symm (hRA _)]
      · simp [Uninstall, hdec, hstrat, hcmd, he1]

/-- Witness of C10: a host on which the removal of the legacy file fails. -/
theorem Uninstall_linear_witness :
    (Uninstall (tableHost [45, 45] 12345
      (fun p => p = "/usr/local/share/ca-certificates/" ∨
        p = "/usr/local/share/ca-certificates/mkcert-rootCA.crt")
      (fun argv => if argv = ["rm", "-f", "/usr/local/share/ca-certificates/mkcert-rootCA.crt"]
        then ⟨"", some "exit status 1"⟩ else ⟨"", none⟩)) () "ca.pem").trace.map Ran.argv =
      [["rm", "-f", "/usr/local/share/ca-certificates/mkcert_development_CA_12345.crt"],
       ["rm", "-f", "/usr/local/share/ca-certificates/mkcert-rootCA.crt"]] ∧
    ∀ r ∈ (Uninstall (tableHost [45, 45] 12345
      (fun p => p = "/usr/local/share/ca-certificates/" ∨
        p = "/usr/local/share/ca-certificates/mkcert-rootCA.crt")
      (fun argv => if argv = ["rm", "-f", "/usr/local/share/ca-certificates/mkcert-rootCA.crt"]
        then ⟨"", some "exit status 1"⟩ else ⟨"", none⟩)) () "ca.pem").trace.dropLast,
      r.result.err = none :=
  ⟨by decide,
   ((Uninstall_linear (tableHost [45, 45] 12345
      (fun p => p = "/usr/local/share/ca-certificates/" ∨
        p = "/usr/local/share/ca-certificates/mkcert-rootCA.crt")
      (fun argv => if argv = ["rm", "-f", "/usr/local/share/ca-certificates/mkcert-rootCA.crt"]
        then ⟨"", some "exit status 1"⟩ else ⟨"", none⟩)) () "ca.pem").2 12345
      ⟨"/usr/local/share/ca-certificates/%s.crt", ["update-ca-certificates"]⟩
      rfl (by decide)).2.2.2.1⟩

/-! ## Error messages -/

theorem Install_failed_entry {σ : Type} (h : Host σ) (s : σ) (path : String)
    (r : Ran) (e : String) (hr : r ∈ (Install h s path).trace)
    (he : r.result.err = some e) :
    ∃ (n : Int) (st : installCommand), h.decodeCert s path = .ok n ∧
      strategy (h.pathExists s) = (st, none) ∧
      ((r.argv = ["tee", certPath st.rootsPattern n] ∧
          (Install h s path).err = some (commandFailed "tee" e)) ∨
       (r.argv = st.command ∧
          (Install h s path).err = some (commandFailed (strings.Join st.command " ") e))) := by
  unfold Install at hr ⊢
  rcases hread : h.ReadFile s path with e0 | pem
  · simp [hread] at hr
  rcases hdec : h.decodeCert s path with e0 | n
  · simp [hread, hdec] at hr
  rcases hstrat : strategy (h.pathExists s) with ⟨st, _ | e0⟩
  swap
  · simp [hread, hdec, hstrat] at hr
  rcases hcmd : h.commandWithSudo s ["tee", certPath st.rootsPattern n] with e0 | cmd
  · simp [hread, hdec, hstrat, hcmd] at hr
  rcases he1 : (h.CombinedOutput s { cmd with Stdin := some pem }).2.err with _ | e1
  swap
  · simp only [hread, hdec, hstrat, hcmd, he1, List.mem_singleton] at hr ⊢
    subst hr
    simp only [he1, Option.some.injEq] at he
    subst he
    exact ⟨n, st, rfl, rfl, Or.inl ⟨rfl, rfl⟩⟩
  rcases hcmd2 : h.commandWithSudo (h.CombinedOutput s { cmd with Stdin := some pem }).1
    st.command with e0 | cmd2
  · simp only [hread, hdec, hstrat, hcmd, he1, hcmd2, List.mem_singleton] at hr
    subst hr
    simp [he1] at he
  rcases he2 : (h.CombinedOutput (h.CombinedOutput s { cmd with Stdin := some pem }).1
    cmd2).2.err with _ | e2
  · simp only [hread, hdec, hstrat, hcmd, he1, hcmd2, he2, List.mem_cons, List.mem_singleton,
      List.not_mem_nil, or_false] at hr
    rcases hr with rfl | rfl
    · simp [he1] at he
    · simp [he2] at he
  · simp only [hread, hdec, hstrat, hcmd, he1, hcmd2, he2, List.mem_cons, List.mem_singleton,
      List.not_mem_nil, or_false] at hr ⊢
    rcases hr with rfl | rfl
    · simp [he1] at he
    · simp only [he2, Option.some.injEq] at he
      subst he
      exact ⟨n, st, rfl, rfl, Or.inr ⟨rfl, rfl⟩⟩

theorem Uninstall_failed_entry {σ : Type} (h : Host σ) (s : σ) (path : String)
    (r : Ran) (e : String) (hr : r ∈ (Uninstall h s path).trace)
    (he : r.result.err = some e) :
    ∃ (n : Int) (st : installCommand), h.decodeCert s path = .ok n ∧
      strategy (h.pathExists s) = (st, none) ∧
      ((r.argv = ["rm", "-f", certPath st.rootsPattern n] ∧
          (Uninstall h s path).err = some (commandFailed "rm" e)) ∨
       (r.argv = ["rm", "-f", legacyFilename st.rootsPattern] ∧
          (Uninstall h s path).err = some (commandFailed "rm (legacy filename)" e)) ∨
       (r.argv = st.command ∧
          (Uninstall h s path).err = some (commandFailed (strings.Join st.command " ") e))) := by
  unfold Uninstall at hr ⊢
  rcases hdec : h.decodeCert s path with e0 | n
  · simp [hdec] at hr
  rcases hstrat : strategy (h.pathExists s) with ⟨st, _ | e0⟩
  swap
  · simp [hdec, hstrat] at hr
  rcases hcmd : h.commandWithSudo s ["rm", "-f", certPath st.rootsPattern n] with e0 | cmd
  · simp [hdec, hstrat, hcmd] at hr
  rcases he1 : (h.CombinedOutput s cmd).2.err with _ | e1
  swap
  · simp only [hdec, hstrat, hcmd, he1, List.mem_singleton] at hr ⊢
    subst hr
    simp only [he1, Option.some.injEq] at he
    subst he
    exact ⟨n, st, rfl, rfl, Or.inl ⟨rfl, rfl⟩⟩
  by_cases hl : h.pathExists (h.CombinedOutput s cmd).1 (legacyFilename st.rootsPattern) = true
  · rcases hcmdL : h.commandWithSudo (h.CombinedOutput s cmd).1
      ["rm", "-f", legacyFilename st.rootsPattern] with e0 | cmdL
    · simp only [hdec, hstrat, hcmd, he1, hl, hcmdL, if_true, List.mem_singleton] at hr
      subst hr
      simp [he1] at he
    rcases he2 : (h.CombinedOutput (h.CombinedOutput s cmd).1 cmdL).2.err with _ | e2
    swap
    · simp only [hdec, hstrat, hcmd, he1, hl, hcmdL, he2, if_true, List.mem_cons,
        List.mem_singleton, List.not_mem_nil, or_false] at hr ⊢
      rcases hr with rfl | rfl
      · simp [he1] at he
      · simp only [he2, Option.some.injEq] at he
        subst he
        exact ⟨n, st, rfl, rfl, Or.inr (Or.inl ⟨rfl, rfl⟩)⟩
    rcases hcmdR : h.commandWithSudo (h.CombinedOutput (h.CombinedOutput s cmd).1 cmdL).1
      st.command with e0 | cmdR
    · simp only [hdec, hstrat, hcmd, he1, hl, hcmdL, he2, uninstallRefresh, hcmdR, if_true,
        List.mem_cons, List.mem_singleton, List.not_mem_nil, or_false] at hr
      rcases hr with rfl | rfl
      · simp [he1] at he
      · simp [he2] at he
    rcases he3 : (h.CombinedOutput (h.CombinedOutput (h.CombinedOutput s cmd).1 cmdL).1
      cmdR).2.err with _ | e3
    · simp only [hdec, hstrat, hcmd, he1, hl, hcmdL, he2, uninstallRefresh, hcmdR, he3,
        if_true, List.cons_append, List.nil_append, List.mem_cons, List.mem_singleton,
        List.not_mem_nil, or_false] at hr
      rcases hr with rfl | rfl | rfl
      · simp [he1] at he
      · simp [he2] at he
      · simp [he3] at he
    · simp only [hdec, hstrat, hcmd, he1, hl, hcmdL, he2, uninstallRefresh, hcmdR, he3,
        if_true, List.cons_append, List.nil_append, List.mem_cons, List.mem_singleton,
        List.not_mem_nil, or_false] at hr ⊢
      rcases hr with rfl | rfl | rfl
      · simp [he1] at he
      · simp [he2] at he
      · simp only [he3, Option.some.injEq] at he
        subst he
        exact ⟨n, st, rfl, rfl, Or.inr (Or.inr ⟨rfl, rfl⟩)⟩
  · rw [Bool.not_eq_true] at hl
    rcases hcmdR : h.commandWithSudo (h.CombinedOutput s cmd).1 st.command with e0 | cmdR
    · simp only [hdec, hstrat, hcmd, he1, hl, uninstallRefresh, hcmdR, Bool.false_eq_true, if_false,
        List.mem_singleton] at hr
      subst hr
      simp [he1] at he
    rcases he3 : (h.CombinedOutput (h.CombinedOutput s cmd).1 cmdR).2.err with _ | e3
    · simp only [hdec, hstrat, hcmd, he1, hl, uninstallRefresh, hcmdR, he3, Bool.false_eq_true, if_false,
        List.cons_append, List.nil_append, List.mem_cons, List.mem_singleton,
        List.not_mem_nil, or_false] at hr
      rcases hr with rfl | rfl
      · simp [he1] at he
      · simp [he3] at he
    · simp only [hdec, hstrat, hcmd, he1, hl, uninstallRefresh, hcmdR, he3, Bool.false_eq_true, if_false,
        List.cons_append, List.nil_append, List.mem_cons, List.mem_singleton,
        List.not_mem_nil, or_false] at hr ⊢
      rcases hr with rfl | rfl
      · simp [he1] at he
      · simp only [he3, Option.some.injEq] at he
        subst he
        exact ⟨n, st, rfl, rfl, Or.inr (Or.inr ⟨rfl, rfl⟩)⟩

/-- Quoting leaves text without `"` and `\` unchanged between the quotes. -/
theorem quote_plain (l : List Char) (h : ∀ c ∈ l, ¬ (c = '"' ∨ c = '\\')) :
    (l.flatMap fun c => if c = '"' ∨ c = '\\' then ['\\', c] else [c]) = l := by
  induction l with
  | nil => rfl
  | cons c cs ih =>
    rw [List.flatMap_cons, if_neg (h c (List.mem_cons_self _ _)),
      ih (fun d hd => h d (List.mem_cons_of_mem _ hd))]
    rfl

/-- The message built for a failed command contains the beginning of its label, when
that needs no escaping, and the text of the error. -/
theorem commandFailed_mentions (label name e : String) (hpre : name.data <+: label.data)
    (hplain : ∀ c ∈ name.data, ¬ (c = '"' ∨ c = '\\')) :
    name.data <:+: (commandFailed label e).data ∧ e.data <:+: (commandFailed label e).data := by
  obtain ⟨rest, hrest⟩ := hpre
  constructor
  · refine ⟨"command ".data ++ ['"'],
      (rest.flatMap fun c => if c = '"' ∨ c = '\\' then ['\\', c] else [c]) ++ ['"'] ++
        " failed: ".data ++ e.data, ?_⟩
    simp only [commandFailed, strconv.Quote, String.data_append, ← hrest, List.flatMap_append,
      quote_plain name.data hplain]
    simp
  · refine ⟨"command ".data ++ (strconv.Quote label).data ++ " failed: ".data, [], ?_⟩
    simp [commandFailed]

/-- The message built for a label without `"` and `\` is the label between double quotes,
after `command ` and before ` failed: ` and the text of the error. -/
theorem commandFailed_plain (label e : String)
    (hplain : ∀ c ∈ label.data, ¬ (c = '"' ∨ c = '\\')) :
    commandFailed label e = "command \"" ++ label ++ "\" failed: " ++ e := by
  apply String.ext
  simp only [commandFailed, strconv.Quote, String.data_append, quote_plain label.data hplain]
  simp

/-- The joined text of each refresh command begins with the name of the command, and
needs no escaping. -/
theorem refresh_label (c : Candidate) (hc : c ∈ candidateTable) :
    ∃ name : String, c.bound.command.head? = some name ∧
      name.data <+: (strings.Join c.bound.command " ").data ∧
      (∀ x ∈ name.data, ¬ (x = '"' ∨ x = '\\')) ∧
      ∀ x ∈ (strings.Join c.bound.command " ").data, ¬ (x = '"' ∨ x = '\\') := by
  simp only [candidateTable, List.mem_cons, List.mem_singleton, List.not_mem_nil,
    or_false] at hc
  rcases hc with rfl | rfl | rfl | rfl
  · exact ⟨"update-ca-trust", rfl, by decide, by decide, by decide⟩
  · exact ⟨"update-ca-certificates", rfl, by decide, by decide, by decide⟩
  · exact ⟨"trust", rfl, by decide, by decide, by decide⟩
  · exact ⟨"update-ca-certificates", rfl, by decide, by decide, by decide⟩

/-- The error returned by `Install` does not depend on the output the commands print. -/
theorem Install_err_withOutput {σ : Type} (h : Host σ) (s : σ) (path : String)
    (f : String → String) :
    (Install (h.withOutput f) s path).err = (Install h s path).err := by
  unfold Install
  simp only [Host.withOutput]
  repeat' split
  all_goals simp_all

/-- The error returned by `Uninstall` does not depend on the output the commands print. -/
theorem Uninstall_err_withOutput {σ : Type} (h : Host σ) (s : σ) (path : String)
    (f : String → String) :
    (Uninstall (h.withOutput f) s path).err = (Uninstall h s path).err := by
  unfold Uninstall uninstallRefresh
  simp only [Host.withOutput]
  repeat' split
  all_goals simp_all

/-- C9, counterexample: on a host where `tee` prints `tee: Permission denied` and exits
with status 1, `Install` runs that one command and returns the message
`command "tee" failed: exit status 1`, in which the captured output does not occur. -/
theorem failure_message_omits_output :
    (Install (tableHost [45, 45] 12345 (fun p => p = "/usr/local/share/ca-certificates/")
      (fun argv => if argv.head? = some "tee"
        then ⟨"tee: Permission denied", some "exit status 1"⟩
        else ⟨"", none⟩)) () "ca.pem").trace =
      [⟨["tee", "/usr/local/share/ca-certificates/mkcert_development_CA_12345.crt"],
        some [45, 45], ⟨"tee: Permission denied", some "exit status 1"⟩⟩] ∧
    (Install (tableHost [45, 45] 12345 (fun p => p = "/usr/local/share/ca-certificates/")
      (fun argv => if argv.head? = some "tee"
        then ⟨"tee: Permission denied", some "exit status 1"⟩
        else ⟨"", none⟩)) () "ca.pem").err = some "command \"tee\" failed: exit status 1" ∧
    ¬ ("tee: Permission denied".data <:+: "command \"tee\" failed: exit status 1".data) := by
  decide

/-- C9, as the code has it: when a command run by `Install` or `Uninstall` fails with
error text `e`, the error returned is the message `command "<label>" failed: <e>`. The
label is `tee` for the `tee` command, `rm` for the removal of the current-name file,
`rm (legacy filename)` for the removal of the legacy file, and the words of the refresh
command joined by spaces for the refresh; it begins with the name of the failing command,
so the message contains that name and the text `e`. The output captured from the command
is discarded: rewriting the output of every command changes neither error. -/
theorem failure_message_names_command {σ : Type} (h : Host σ) (s : σ) (path : String) :
    (∀ r ∈ (Install h s path).trace, ∀ e, r.result.err = some e →
      ∃ (n : Int) (st : installCommand) (label name : String),
        h.decodeCert s path = .ok n ∧ strategy (h.pathExists s) = (st, none) ∧
        ((r.argv = ["tee", certPath st.rootsPattern n] ∧ label = "tee") ∨
         (r.argv = st.command ∧ label = strings.Join st.command " ")) ∧
        r.argv.head? = some name ∧ name.data <+: label.data ∧
        (Install h s path).err = some (commandFailed label e) ∧
        commandFailed label e = "command \"" ++ label ++ "\" failed: " ++ e ∧
        name.data <:+: (commandFailed label e).data ∧
        e.data <:+: (commandFailed label e).data) ∧
    (∀ r ∈ (Uninstall h s path).trace, ∀ e, r.result.err = some e →
      ∃ (n : Int) (st : installCommand) (label name : String),
        h.decodeCert s path = .ok n ∧ strategy (h.pathExists s) = (st, none) ∧
        ((r.argv = ["rm", "-f", certPath st.rootsPattern n] ∧ label = "rm") ∨
         (r.argv = ["rm", "-f", legacyFilename st.rootsPattern] ∧
            label = "rm (legacy filename)") ∨
         (r.argv = st.command ∧ label = strings.Join st.command " ")) ∧
        r.argv.head? = some name ∧ name.data <+: label.data ∧
        (Uninstall h s path).err = some (commandFailed label e) ∧
        commandFailed label e = "command \"" ++ label ++ "\" failed: " ++ e ∧
        name.data <:+: (commandFailed label e).data ∧
        e.data <:+: (commandFailed label e).data) ∧
    (∀ f : String → String,
      (Install (h.withOutput f) s path).err = (Install h s path).err ∧
      (Uninstall (h.withOutput f) s path).err = (Uninstall h s path).err) := by
  refine ⟨?_, ?_, fun f => ⟨Install_err_withOutput h s path f,
    Uninstall_err_withOutput h s path f⟩⟩
  · intro r hr e he
    obtain ⟨n, st, hdec, hst, hcase⟩ := Install_failed_entry h s path r e hr he
    rcases hcase with ⟨hargv, herr⟩ | ⟨hargv, herr⟩
    · have hm := commandFailed_mentions "tee" "tee" e (by decide) (by decide)
      exact ⟨n, st, "tee", "tee", hdec, hst, Or.inl ⟨hargv, rfl⟩, by rw [hargv]; rfl,
        by decide, herr, commandFailed_plain "tee" e (by decide), hm.1, hm.2⟩
    · obtain ⟨c, hc, rfl⟩ := strategy_resolved _ st hst
      obtain ⟨name, hname, hpre, hplain, hjoin⟩ := refresh_label c hc
      have hm := commandFailed_mentions _ name e hpre hplain
      exact ⟨n, c.bound, _, name, hdec, hst, Or.inr ⟨hargv, rfl⟩, hargv ▸ hname, hpre, herr,
        commandFailed_plain _ e hjoin, hm.1, hm.2⟩
  · intro r hr e he
    obtain ⟨n, st, hdec, hst, hcase⟩ := Uninstall_failed_entry h s path r e hr he
    rcases hcase with ⟨hargv, herr⟩ | ⟨hargv, herr⟩ | ⟨hargv, herr⟩
    · have hm := commandFailed_mentions "rm" "rm" e (by decide) (by decide)
      exact ⟨n, st, "rm", "rm", hdec, hst, Or.inl ⟨hargv, rfl⟩, by rw [hargv]; rfl,
        by decide, herr, commandFailed_plain "rm" e (by decide), hm.1, hm.2⟩
    · have hm := commandFailed_mentions "rm (legacy filename)" "rm" e (by decide) (by decide)
      exact ⟨n, st, "rm (legacy filename)", "rm", hdec, hst, Or.inr (Or.inl ⟨hargv, rfl⟩),
        by rw [hargv]; rfl, by decide, herr,
        commandFailed_plain "rm (legacy filename)" e (by decide), hm.1, hm.2⟩
    · obtain ⟨c, hc, rfl⟩ := strategy_resolved _ st hst
      obtain ⟨name, hname, hpre, hplain, hjoin⟩ := refresh_label c hc
      have hm := commandFailed_mentions _ name e hpre hplain
      exact ⟨n, c.bound, _, name, hdec, hst, Or.inr (Or.inr ⟨hargv, rfl⟩), hargv ▸ hname,
        hpre, herr, commandFailed_plain _ e hjoin, hm.1, hm.2⟩

/-- Witness of C9: the refresh command fails after a successful removal, and rewriting the
output leaves the error as it is; and on `legacyFailHost` the failed removal of the legacy
file is reported as `command "rm (legacy filename)" failed: exit status 1`. -/
theorem failure_message_names_command_witness :
    ((Uninstall (tableHost [45, 45] 12345 (fun p => p = "/etc/pki/ca-trust/source/anchors/")
      (fun argv => if argv.head? = some "update-ca-trust"
        then ⟨"p11-kit: no configured writable location", some "exit status 1"⟩
        else ⟨"", none⟩)) () "ca.pem").err =
      some "command \"update-ca-trust extract\" failed: exit status 1" ∧
     (Uninstall ((tableHost [45, 45] 12345 (fun p => p = "/etc/pki/ca-trust/source/anchors/")
      (fun argv => if argv.head? = some "update-ca-trust"
        then ⟨"p11-kit: no configured writable location", some "exit status 1"⟩
        else ⟨"", none⟩)).withOutput (fun _ => "")) () "ca.pem").err =
      some "command \"update-ca-trust extract\" failed: exit status 1") ∧
    ((Uninstall legacyFailHost () "ca.pem").err =
      some "command \"rm (legacy filename)\" failed: exit status 1" ∧
     ∃ (n : Int) (st : installCommand) (label name : String),
      legacyFailHost.decodeCert () "ca.pem" = .ok n ∧
      strategy (legacyFailHost.pathExists ()) = (st, none) ∧
      ((["rm", "-f", "/usr/local/share/ca-certificates/mkcert-rootCA.crt"] =
            ["rm", "-f", certPath st.rootsPattern n] ∧ label = "rm") ∨
       (["rm", "-f", "/usr/local/share/ca-certificates/mkcert-rootCA.crt"] =
            ["rm", "-f", legacyFilename st.rootsPattern] ∧ label = "rm (legacy filename)") ∨
       (["rm", "-f", "/usr/local/share/ca-certificates/mkcert-rootCA.crt"] = st.command ∧
            label = strings.Join st.command " ")) ∧
      some "rm" = some name ∧ name.data <+: label.data ∧
      (Uninstall legacyFailHost () "ca.pem").err = some (commandFailed label "exit status 1") ∧
      commandFailed label "exit status 1" =
        "command \"" ++ label ++ "\" failed: " ++ "exit status 1" ∧
      name.data <:+: (commandFailed label "exit status 1").data ∧
      "exit status 1".data <:+: (commandFailed label "exit status 1").data) :=
  have w := ((failure_message_names_command
    (tableHost [45, 45] 12345 (fun p => p = "/etc/pki/ca-trust/source/anchors/")
      (fun argv => if argv.head? = some "update-ca-trust"
        then ⟨"p11-kit: no configured writable location", some "exit status 1"⟩
        else ⟨"", none⟩)) () "ca.pem").2.2 (fun _ => "")).2
  ⟨⟨by decide, w.trans (by decide)⟩, by decide,
   (failure_message_names_command legacyFailHost () "ca.pem").2.1
     ⟨["rm", "-f", "/usr/local/share/ca-certificates/mkcert-rootCA.crt"], none,
       ⟨"rm: cannot remove: Read-only file system", some "exit status 1"⟩⟩
     (by decide) "exit status 1" rfl⟩

/-! ## The reference file system, and hosts that answer differently for one path -/

theorem refRun_refresh (c : Candidate) (hc : c ∈ candidateTable) (fs : List String) :
    refRun fs c.bound.command = fs := by
  simp only [candidateTable, List.mem_cons, List.mem_singleton, List.not_mem_nil,
    or_false] at hc
  rcases hc with rfl | rfl | rfl | rfl <;> rfl

theorem refRun_tee (fs : List String) (p : String) : refRun fs ["tee", p] = p :: fs := rfl

theorem refRun_rm (fs : List String) (p : String) :
    refRun fs ["rm", "-f", p] = fs.filter (fun q => q ≠ p) := rfl

/-- Neither the current-name path nor the legacy path is a candidate directory. -/
theorem paths_not_candidate (c : Candidate) (hc : c ∈ candidateTable) (n : Int) :
    certPath c.bound.rootsPattern n ∉ candidateDirs ∧
    legacyFilename c.bound.rootsPattern ∉ candidateDirs := by
  obtain ⟨pre, suf, hsplit, hsuf⟩ := bound_splits c hc
  rw [certPath_split _ pre suf hsplit, legacyFilename_split _ pre suf hsplit]
  exact ⟨not_candidateDir _ suf hsuf, not_candidateDir _ suf hsuf⟩

/-- Two lists of paths holding the same candidate directories resolve alike. -/
theorem strategy_mem_congr (fs fs' : List String)
    (h : ∀ d ∈ candidateDirs, (d ∈ fs' ↔ d ∈ fs)) :
    strategy (fun p => decide (p ∈ fs')) = strategy (fun p => decide (p ∈ fs)) :=
  strategy_congr _ _ (fun d hd => by simp only [h d hd])

theorem refHost_Install (pem : List UInt8) (n : Int) (fs : List String) (path : String)
    (st : installCommand) (hst : strategy (fun p => decide (p ∈ fs)) = (st, none)) :
    (Install (refHost pem n) fs path).err = none ∧
    (Install (refHost pem n) fs path).state = certPath st.rootsPattern n :: fs ∧
    (Install (refHost pem n) fs path).trace.head?.map Ran.argv =
      some ["tee", certPath st.rootsPattern n] := by
  obtain ⟨c, hc, rfl⟩ := strategy_resolved _ st hst
  have h1 : (refHost pem n).ReadFile fs path = .ok pem := rfl
  have h2 : (refHost pem n).decodeCert fs path = .ok n := rfl
  have h3 : strategy ((refHost pem n).pathExists fs) = (c.bound, none) := hst
  have h4 : ∀ s argv, (refHost pem n).commandWithSudo s argv = .ok ⟨argv, none⟩ :=
    fun _ _ => rfl
  have h5 : ∀ s cmd, (refHost pem n).CombinedOutput s cmd = (refRun s cmd.Args, ⟨"", none⟩) :=
    fun _ _ => rfl
  simp [Install, h1, h2, h3, h4, h5, refRun_refresh c hc, refRun_tee, refRun_rm]

theorem refHost_Uninstall (pem : List UInt8) (n : Int) (fs : List String) (path : String)
    (st : installCommand) (hst : strategy (fun p => decide (p ∈ fs)) = (st, none)) :
    (Uninstall (refHost pem n) fs path).err = none ∧
    (∀ p, p ∈ (Uninstall (refHost pem n) fs path).state ↔
      (p ∈ fs ∧ p ≠ certPath st.rootsPattern n ∧ p ≠ legacyFilename st.rootsPattern)) ∧
    (Uninstall (refHost pem n) fs path).trace.head?.map Ran.argv =
      some ["rm", "-f", certPath st.rootsPattern n] ∧
    ((Uninstall (refHost pem n) fs path).trace.map Ran.argv).getLast? = some st.command := by
  obtain ⟨c, hc, rfl⟩ := strategy_resolved _ st hst
  have h2 : (refHost pem n).decodeCert fs path = .ok n := rfl
  have h3 : strategy ((refHost pem n).pathExists fs) = (c.bound, none) := hst
  have h4 : ∀ s argv, (refHost pem n).commandWithSudo s argv = .ok ⟨argv, none⟩ :=
    fun _ _ => rfl
  have h5 : ∀ s cmd, (refHost pem n).CombinedOutput s cmd = (refRun s cmd.Args, ⟨"", none⟩) :=
    fun _ _ => rfl
  have h6 : ∀ s p, (refHost pem n).pathExists s p = decide (p ∈ s) := fun _ _ => rfl
  by_cases hl : legacyFilename c.bound.rootsPattern ∈ fs ∧
      ¬ legacyFilename c.bound.rootsPattern = certPath c.bound.rootsPattern n
  · simp [Uninstall, uninstallRefresh, h2, h3, h4, h5, h6, refRun_refresh c hc,
      refRun_rm, hl]
    intro p _
    exact And.comm
  · simp [Uninstall, uninstallRefresh, h2, h3, h4, h5, h6, refRun_refresh c hc,
      refRun_rm, hl]
    intro p hp hpc hpl
    exact hl ⟨hpl ▸ hp, hpl ▸ hpc⟩

/-- Changing the answer of `pathExists` at the current-name path changes nothing in what
`Uninstall` does. -/
theorem Uninstall_withExists {σ : Type} (h : Host σ) (s : σ) (path : String)
    (n : Int) (st : installCommand) (hdec : h.decodeCert s path = .ok n)
    (hstrat : strategy (h.pathExists s) = (st, none)) (b : Bool) :
    Uninstall (h.withExists (certPath st.rootsPattern n) b) s path = Uninstall h s path := by
  obtain ⟨c, hc, rfl⟩ := strategy_resolved _ st hstrat
  obtain ⟨pre, suf, hsplit, _⟩ := bound_splits c hc
  have hne := (certPath_ne_legacy _ pre suf hsplit n).symm
  have hcur := (paths_not_candidate c hc n).1
  have hs : strategy ((h.withExists (certPath c.bound.rootsPattern n) b).pathExists s) =
      (c.bound, none) := by
    rw [← hstrat]
    refine strategy_congr _ _ (fun d hd => ?_)
    show (if d = certPath c.bound.rootsPattern n then b else h.pathExists s d) = _
    rw [if_neg]
    rintro rfl
    exact hcur hd
  have hp : ∀ s', (h.withExists (certPath c.bound.rootsPattern n) b).pathExists s'
      (legacyFilename c.bound.rootsPattern) =
      h.pathExists s' (legacyFilename c.bound.rootsPattern) := fun s' => if_neg hne
  have hd : (h.withExists (certPath c.bound.rootsPattern n) b).decodeCert s path = .ok n :=
    hdec
  have hw : ∀ s' argv, (h.withExists (certPath c.bound.rootsPattern n) b).commandWithSudo
      s' argv = h.commandWithSudo s' argv := fun _ _ => rfl
  have ho : ∀ s' cmd, (h.withExists (certPath c.bound.rootsPattern n) b).CombinedOutput
      s' cmd = h.CombinedOutput s' cmd := fun _ _ => rfl
  simp only [Uninstall, uninstallRefresh, hs, hp, hd, hw, ho, hdec, hstrat]

/-! ## Install followed by Uninstall -/

/-- The first command `Install` runs, if any, is `tee` on the current-name path. -/
theorem Install_first {σ : Type} (h : Host σ) (s : σ) (path : String) (r : Ran)
    (hr : (Install h s path).trace.head? = some r) :
    ∃ (n : Int) (st : installCommand), h.decodeCert s path = .ok n ∧
      strategy (h.pathExists s) = (st, none) ∧
      r.argv = ["tee", certPath st.rootsPattern n] := by
  unfold Install at hr
  rcases hread : h.ReadFile s path with e0 | pem
  · simp [hread] at hr
  rcases hdec : h.decodeCert s path with e0 | n
  · simp [hread, hdec] at hr
  rcases hstrat : strategy (h.pathExists s) with ⟨st, _ | e0⟩
  swap
  · simp [hread, hdec, hstrat] at hr
  refine ⟨n, st, rfl, rfl, ?_⟩
  rcases hcmd : h.commandWithSudo s ["tee", certPath st.rootsPattern n] with e0 | cmd
  · simp [hread, hdec, hstrat, hcmd] at hr
  simp only [hread, hdec, hstrat, hcmd] at hr
  repeat' split at hr
  all_goals
    simp only [List.head?_cons, Option.some.injEq] at hr
    rw [← hr]

/-- The first command `Uninstall` runs, if any, is `rm -f` on the current-name path. -/
theorem Uninstall_first {σ : Type} (h : Host σ) (s : σ) (path : String) (r : Ran)
    (hr : (Uninstall h s path).trace.head? = some r) :
    ∃ (n : Int) (st : installCommand), h.decodeCert s path = .ok n ∧
      strategy (h.pathExists s) = (st, none) ∧
      r.argv = ["rm", "-f", certPath st.rootsPattern n] := by
  unfold Uninstall uninstallRefresh at hr
  rcases hdec : h.decodeCert s path with e0 | n
  · simp [hdec] at hr
  rcases hstrat : strategy (h.pathExists s) with ⟨st, _ | e0⟩
  swap
  · simp [hdec, hstrat] at hr
  refine ⟨n, st, rfl, rfl, ?_⟩
  rcases hcmd : h.commandWithSudo s ["rm", "-f", certPath st.rootsPattern n] with e0 | cmd
  · simp [hdec, hstrat, hcmd] at hr
  simp only [hdec, hstrat, hcmd] at hr
  repeat' split at hr
  all_goals
    simp only [List.head?_cons, List.cons_append, Option.some.injEq] at hr
    rw [← hr]

/-- A list of paths holding a candidate directory resolves to a strategy. -/
theorem strategy_of_mem (fs : List String) (h : ∃ d ∈ candidateDirs, d ∈ fs) :
    ∃ st : installCommand, strategy (fun p => decide (p ∈ fs)) = (st, none) := by
  have hnone : (strategy (fun p => decide (p ∈ fs))).2 = none := by
    by_contra hne
    obtain ⟨d, hd, hmem⟩ := h
    have := (strategy_err_iff _).1 hne d hd
    simp [hmem] at this
  exact ⟨(strategy (fun p => decide (p ∈ fs))).1, Prod.ext rfl hnone⟩

/-- C6: round trip. When the four candidate directories exist or not alike at both calls
and the certificate parses alike, the path `Uninstall` hands to `rm -f` first is, character
for character, the path `Install` handed to `tee`. On the reference file system `Install`
then `Uninstall` both succeed, the path given to `tee` exists after `Install` and no
longer exists after `Uninstall`. -/
theorem install_uninstall_same_path {σ : Type} (h : Host σ) (s s' : σ) (path : String) :
    (∀ r r' : Ran,
      (∀ d ∈ candidateDirs, h.pathExists s' d = h.pathExists s d) →
      h.decodeCert s' path = h.decodeCert s path →
      (Install h s path).trace.head? = some r →
      (Uninstall h s' path).trace.head? = some r' →
      ∃ p : String, r.argv = ["tee", p] ∧ r'.argv = ["rm", "-f", p]) ∧
    (∀ (pem : List UInt8) (n : Int) (fs : List String),
      (∃ d ∈ candidateDirs, d ∈ fs) →
      (Install (refHost pem n) fs path).err = none ∧
      (Uninstall (refHost pem n) (Install (refHost pem n) fs path).state path).err = none ∧
      ∃ p : String,
        (Install (refHost pem n) fs path).trace.head?.map Ran.argv = some ["tee", p] ∧
        (Uninstall (refHost pem n) (Install (refHost pem n) fs path).state
          path).trace.head?.map Ran.argv = some ["rm", "-f", p] ∧
        p ∈ (Install (refHost pem n) fs path).state ∧
        p ∉ (Uninstall (refHost pem n) (Install (refHost pem n) fs path).state path).state) := by
  constructor
  · intro r r' hdirs hcert hr hr'
    obtain ⟨n, st, hdec, hst, hargv⟩ := Install_first h s path r hr
    obtain ⟨n', st', hdec', hst', hargv'⟩ := Uninstall_first h s' path r' hr'
    rw [hcert, hdec] at hdec'
    have hn : n = n' := by injection hdec'
    rw [strategy_congr _ _ hdirs, hst] at hst'
    have hs : st = st' := by injection hst'
    subst hn
    subst hs
    exact ⟨_, hargv, hargv'⟩
  · intro pem n fs hex
    obtain ⟨st, hst⟩ := strategy_of_mem fs hex
    obtain ⟨c, hc, rfl⟩ := strategy_resolved _ st hst
    obtain ⟨hierr, histate, hihead⟩ := refHost_Install pem n fs path c.bound hst
    have hst2 : strategy (fun p => decide (p ∈ certPath c.bound.rootsPattern n :: fs)) =
        (c.bound, none) := by
      rw [← hst]
      refine strategy_mem_congr _ _ (fun d hd => ?_)
      rw [List.mem_cons]
      constructor
      · rintro (rfl | hmem)
        · exact absurd hd (paths_not_candidate c hc n).1
        · exact hmem
      · exact Or.inr
    obtain ⟨huerr, hustate, huhead, _⟩ :=
      refHost_Uninstall pem n (certPath c.bound.rootsPattern n :: fs) path c.bound hst2
    rw [histate]
    refine ⟨hierr, huerr, certPath c.bound.rootsPattern n, hihead, huhead,
      List.mem_cons_self _ _, ?_⟩
    intro hmem
    exact ((hustate _).1 hmem).2.1 rfl

/-- Witness of C6: the reference file system of a host with
`/usr/local/share/ca-certificates/`, certificate serial 12345. -/
theorem install_uninstall_same_path_witness :
    (Install (refHost [45, 45] 12345) ["/usr/local/share/ca-certificates/"] "ca.pem").state =
      ["/usr/local/share/ca-certificates/mkcert_development_CA_12345.crt",
       "/usr/local/share/ca-certificates/"] ∧
    (Uninstall (refHost [45, 45] 12345)
      (Install (refHost [45, 45] 12345) ["/usr/local/share/ca-certificates/"] "ca.pem").state
      "ca.pem").state = ["/usr/local/share/ca-certificates/"] ∧
    (Uninstall (refHost [45, 45] 12345)
      (Install (refHost [45, 45] 12345) ["/usr/local/share/ca-certificates/"] "ca.pem").state
      "ca.pem").err = none :=
  ⟨by decide, by decide,
   ((install_uninstall_same_path (refHost [45, 45] 12345)
      ["/usr/local/share/ca-certificates/"] ["/usr/local/share/ca-certificates/"] "ca.pem").2
      [45, 45] 12345 ["/usr/local/share/ca-certificates/"]
      ⟨"/usr/local/share/ca-certificates/", by decide, by decide⟩).2.1⟩

/-- C8: removal is idempotent. `Uninstall` does not look at whether the current-name file
exists: on any host, forcing the existence check of that path to either answer changes
nothing in what `Uninstall` does. Once `rm -f` on the current-name path has been built
and has succeeded, as `rm -f` does on a missing file, and the legacy removal, if there is
one, has too, the refresh command is run as soon as it can be built, and `Uninstall`
returns no error when the refresh succeeds; nothing is assumed of commands `Uninstall`
does not issue. On the reference file system, whether or not the file is there,
`Uninstall` succeeds and ends with the refresh command, the file is absent afterwards, and
a second `Uninstall` run right after it succeeds and ends with the refresh as well. -/
theorem Uninstall_absent_file {σ : Type} (h : Host σ) (s : σ) (path : String)
    (n : Int) (st : installCommand) (hdec : h.decodeCert s path = .ok n)
    (hstrat : strategy (h.pathExists s) = (st, none)) :
    (∀ b : Bool,
      Uninstall (h.withExists (certPath st.rootsPattern n) b) s path = Uninstall h s path) ∧
    (∀ cmd : ExecCmd,
      h.commandWithSudo s ["rm", "-f", certPath st.rootsPattern n] = .ok cmd →
      (h.CombinedOutput s cmd).2.err = none →
      (h.pathExists (h.CombinedOutput s cmd).1 (legacyFilename st.rootsPattern) = false →
        ∀ cmdR : ExecCmd,
        h.commandWithSudo (h.CombinedOutput s cmd).1 st.command = .ok cmdR →
        (Uninstall h s path).trace.map Ran.argv =
          [["rm", "-f", certPath st.rootsPattern n], st.command] ∧
        ((h.CombinedOutput (h.CombinedOutput s cmd).1 cmdR).2.err = none →
          (Uninstall h s path).err = none)) ∧
      (h.pathExists (h.CombinedOutput s cmd).1 (legacyFilename st.rootsPattern) = true →
        ∀ cmdL cmdR : ExecCmd,
        h.commandWithSudo (h.CombinedOutput s cmd).1
          ["rm", "-f", legacyFilename st.rootsPattern] = .ok cmdL →
        (h.CombinedOutput (h.CombinedOutput s cmd).1 cmdL).2.err = none →
        h.commandWithSudo (h.CombinedOutput (h.CombinedOutput s cmd).1 cmdL).1 st.command
          = .ok cmdR →
        (Uninstall h s path).trace.map Ran.argv =
          [["rm", "-f", certPath st.rootsPattern n],
           ["rm", "-f", legacyFilename st.rootsPattern], st.command] ∧
        ((h.CombinedOutput (h.CombinedOutput (h.CombinedOutput s cmd).1 cmdL).1
            cmdR).2.err = none →
          (Uninstall h s path).err = none))) ∧
    (∀ (pem : List UInt8) (fs : List String),
      strategy (fun p => decide (p ∈ fs)) = (st, none) →
      (Uninstall (refHost pem n) fs path).err = none ∧
      ((Uninstall (refHost pem n) fs path).trace.map Ran.argv).getLast? = some st.command ∧
      certPath st.rootsPattern n ∉ (Uninstall (refHost pem n) fs path).state ∧
      (Uninstall (refHost pem n) (Uninstall (refHost pem n) fs path).state path).err = none ∧
      ((Uninstall (refHost pem n) (Uninstall (refHost pem n) fs path).state
        path).trace.map Ran.argv).getLast? = some st.command) := by
  refine ⟨fun b => Uninstall_withExists h s path n st hdec hstrat b,
    fun cmd hcmd he1 => ⟨fun hl cmdR hcmdR => ?_, fun hl cmdL cmdR hcmdL he2 hcmdR => ?_⟩,
    fun pem fs hst => ?_⟩
  · exact uninstall_without_legacy h s path n st cmd cmdR hdec hstrat hcmd he1 hl hcmdR
  · exact uninstall_with_legacy h s path n st cmd cmdL cmdR hdec hstrat hcmd he1 hl
      hcmdL he2 hcmdR
  · obtain ⟨c, hc, rfl⟩ := strategy_resolved _ st hst
    obtain ⟨herr, hstate, _, hlast⟩ := refHost_Uninstall pem n fs path c.bound hst
    have hst2 : strategy (fun p => decide (p ∈ (Uninstall (refHost pem n) fs path).state)) =
        (c.bound, none) := by
      rw [← hst]
      refine strategy_mem_congr _ _ (fun d hd => ?_)
      rw [hstate]
      constructor
      · exact fun hmem => hmem.1
      · intro hmem
        refine ⟨hmem, ?_, ?_⟩
        · rintro rfl
          exact (paths_not_candidate c hc n).1 hd
        · rintro rfl
          exact (paths_not_candidate c hc n).2 hd
    obtain ⟨herr2, _, _, hlast2⟩ :=
      refHost_Uninstall pem n (Uninstall (refHost pem n) fs path).state path c.bound hst2
    exact ⟨herr, hlast, fun hmem => ((hstate _).1 hmem).2.1 rfl, herr2, hlast2⟩

/-- Witness of C8: a certificate that was never installed is uninstalled twice on the
reference file system; and on a host that reports no file at all besides the anchor
directory and on which a command `Uninstall` does not issue fails, the removal and the
refresh are run and no error is returned. -/
theorem Uninstall_absent_file_witness :
    ((Uninstall (refHost [45, 45] 12345) ["/usr/local/share/ca-certificates/"] "ca.pem").err
      = none ∧
     (Uninstall (refHost [45, 45] 12345)
      (Uninstall (refHost [45, 45] 12345) ["/usr/local/share/ca-certificates/"] "ca.pem").state
      "ca.pem").err = none) ∧
    ((Uninstall (tableHost [45, 45] 12345 (fun p => p = "/usr/local/share/ca-certificates/")
      (fun argv => if argv = ["false"] then ⟨"", some "exit status 1"⟩ else ⟨"", none⟩))
      () "ca.pem").trace.map Ran.argv =
      [["rm", "-f", "/usr/local/share/ca-certificates/mkcert_development_CA_12345.crt"],
       ["update-ca-certificates"]] ∧
     (Uninstall (tableHost [45, 45] 12345 (fun p => p = "/usr/local/share/ca-certificates/")
      (fun argv => if argv = ["false"] then ⟨"", some "exit status 1"⟩ else ⟨"", none⟩))
      () "ca.pem").err = none) :=
  have w := (Uninstall_absent_file (refHost [45, 45] 12345)
    ["/usr/local/share/ca-certificates/"] "ca.pem" 12345
    ⟨"/usr/local/share/ca-certificates/%s.crt", ["update-ca-certificates"]⟩
    rfl (by decide)).2.2 [45, 45] ["/usr/local/share/ca-certificates/"] (by decide)
  have v := ((Uninstall_absent_file
    (tableHost [45, 45] 12345 (fun p => p = "/usr/local/share/ca-certificates/")
      (fun argv => if argv = ["false"] then ⟨"", some "exit status 1"⟩ else ⟨"", none⟩))
    () "ca.pem" 12345
    ⟨"/usr/local/share/ca-certificates/%s.crt", ["update-ca-certificates"]⟩
    rfl (by decide)).2.1
    ⟨["rm", "-f", "/usr/local/share/ca-certificates/mkcert_development_CA_12345.crt"], none⟩
    rfl (by decide)).1 (by decide) ⟨["update-ca-certificates"], none⟩ rfl
  ⟨⟨w.1, w.2.2.2.1⟩, v.1.trans (by decide), v.2 (by decide)⟩

end Truststore
